import Mathlib

/-!
# nwacc::avl_tree (BigTree/avl_tree.h)

A shallow embedding of the key/value AVL tree of `BigTree/avl_tree.h`.

Modelling conventions.

* An owning `node *` is a `Tree`: `null`, or a node cell together with the two
  subtrees it owns.  Every cell carries the address `addr` of its storage, so
  that the non-owning `parent` pointer can be kept as `Option Nat`
  (`none` is `nullptr`) and compared the way the source compares pointers.
* A parameter `node *&current` is passed as the tree stored in the referenced
  slot; the function returns the tree stored in that slot afterwards.
* `new node` takes the address of the fresh cell as an explicit argument `a`.
* A function that dereferences a pointer returns `Option`; `none` records that
  the source has no defined behaviour on that path (a null dereference, or an
  expression that has no meaning).  Where a member has no behaviour for that
  reason, a second definition named after the reading it takes
  (`remove_via_child_slots`, `clone_from_current`, `get_via_root_slot`) serves
  as the comparison point.
* `int` fields (`height`, `tree_size`) are `Int`; signed overflow is undefined
  in the source and is not modelled.
* `throw std::length_error` is `Except.error exception.length_error`.
-/

namespace nwacc

/-- An owning `node *`: `nullptr`, or the cell at address `addr` with the
fields of `struct node` in declaration order. -/
inductive Tree (K T : Type) where
  | null : Tree K T
  | node (addr : Nat) (element : T) (key : K) (parent : Option Nat)
      (left right : Tree K T) (height : Int) : Tree K T
  deriving DecidableEq, Repr

/-- The object state of `avl_tree<T, K>`: the members `root` and `tree_size`
(`indent` is only used for printing). -/
structure avl_tree (K T : Type) where
  root : Tree K T
  tree_size : Int
  deriving DecidableEq, Repr

/-- The exceptions the container throws. -/
inductive exception where
  | length_error : exception
  deriving DecidableEq, Repr

deriving instance DecidableEq for Except

variable {K T : Type}

/-- The pointer value itself: the address held by a `node *`. -/
def Tree.ptr : Tree K T → Option Nat
  | .null => none
  | .node a _ _ _ _ _ _ => some a

/-- Test `p != nullptr`. -/
def Tree.is_node : Tree K T → Bool
  | .null => false
  | .node _ _ _ _ _ _ _ => true

/-- Source `avl_tree::height`: `current == nullptr ? -1 : current->height`. -/
def height : Tree K T → Int
  | .null => -1
  | .node _ _ _ _ _ _ h => h

/-- The conditional parent repair of the rotations:
`if (child != nullptr && child->parent != current) child->parent = current;`
applied to the owned subtree `child`, where `c` is the address of `current`. -/
def fix_parent (c : Nat) : Tree K T → Tree K T
  | .null => .null
  | .node a e k p l r h =>
    .node a e k (if p ≠ some c then some c else p) l r h

/-- Source `avl_tree::rotate_with_left_child(node *&current)`. -/
def rotate_with_left_child : Tree K T → Option (Tree K T)
  | .null => none
  | .node _ _ _ _ .null _ _ => none
  | .node c ce ck cp (.node t te tk _ tl tr _) cr _ =>
    -- temp = current->left; current->left = temp->right; temp->right = current;
    -- temp->parent = current->parent; current->parent = temp;
    let cr1 := fix_parent c cr
    let cl1 := fix_parent c tr
    let ch1 := max (height cl1) (height cr1) + 1
    let th1 := max (height tl) ch1 + 1
    -- current = temp
    some (.node t te tk cp tl (.node c ce ck (some t) cl1 cr1 ch1) th1)

/-- Source `avl_tree::rotate_with_right_child(node *&current)`. -/
def rotate_with_right_child : Tree K T → Option (Tree K T)
  | .null => none
  | .node _ _ _ _ _ .null _ => none
  | .node c ce ck cp cl (.node t te tk _ tl tr _) _ =>
    -- temp = current->right; current->right = temp->left; temp->left = current;
    -- temp->parent = current->parent; current->parent = temp;
    let cr1 := fix_parent c tl
    let cl1 := fix_parent c cl
    let ch1 := max (height cl1) (height cr1) + 1
    let th1 := max (height tr) ch1 + 1
    -- current = temp
    some (.node t te tk cp (.node c ce ck (some t) cl1 cr1 ch1) tr th1)

/-- Source `avl_tree::double_rotate_with_left_child(node *&current)`. -/
def double_rotate_with_left_child : Tree K T → Option (Tree K T)
  | .null => none
  | .node c ce ck cp cl cr ch =>
    match rotate_with_right_child cl with
    | none => none
    | some cl1 => rotate_with_left_child (.node c ce ck cp cl1 cr ch)

/-- Source `avl_tree::double_rotate_with_right_child(node *&current)`. -/
def double_rotate_with_right_child : Tree K T → Option (Tree K T)
  | .null => none
  | .node c ce ck cp cl cr ch =>
    match rotate_with_left_child cr with
    | none => none
    | some cr1 => rotate_with_right_child (.node c ce ck cp cl cr1 ch)

/-- The last statement of `balance`:
`current->height = max(height(current->left), height(current->right)) + 1`. -/
def refresh_height : Tree K T → Option (Tree K T)
  | .null => none
  | .node a e k p l r _ => some (.node a e k p l r (max (height l) (height r) + 1))

/-- Source `avl_tree::balance(node *&current)`. -/
def balance : Tree K T → Option (Tree K T)
  | .null => some .null
  | .node a e k p l r h =>
    if height l - height r > 1 then
      match l with
      | .null => none
      | .node _ _ _ _ ll lr _ =>
        if height ll ≥ height lr then
          (rotate_with_left_child (.node a e k p l r h)).bind refresh_height
        else
          (double_rotate_with_left_child (.node a e k p l r h)).bind refresh_height
    else if height r - height l > 1 then
      match r with
      | .null => none
      | .node _ _ _ _ rl rr _ =>
        if height rr ≥ height rl then
          (rotate_with_right_child (.node a e k p l r h)).bind refresh_height
        else
          (double_rotate_with_right_child (.node a e k p l r h)).bind refresh_height
    else
      refresh_height (.node a e k p l r h)

/-- Source `avl_tree::find_min(node *current)`: the leftmost node (returned
with the subtree it owns), `null` for the empty tree. -/
def find_min : Tree K T → Tree K T
  | .null => .null
  | .node a e k p .null r h => .node a e k p .null r h
  | .node _ _ _ _ (.node la le lk lp ll lr lh) _ _ => find_min (.node la le lk lp ll lr lh)

/-- Source `avl_tree::get(K key, node *&current)`. -/
def get [LinearOrder K] (key : K) : Tree K T → Except exception T
  | .null => .error .length_error
  | .node _ e k _ l r _ =>
    if key < k then get key l
    else if k < key then get key r
    else .ok e

/-- Source `avl_tree::get(const K &key) const`:
`return this->get(key, this->root)`.  The member is `const`, so inside it the
object is `const` and `this->root` is a `node *const`.  The only `get` taking
two arguments is the private `get(K key, node *&current)`, which is not a
`const` member and takes the slot by non-`const` reference: it can be called
neither on the `const` object nor with `this->root` bound to `node *&`.  The
call has no meaning for any `K` and `T`, so the member has no behaviour
(`none`). -/
def avl_tree.get [LinearOrder K] (_t : avl_tree K T) (_key : K) :
    Option (Except exception T) :=
  none

/-- The comparison point for the public `get`: the private `get` started at
the slot `root`, which is what the body of the public member spells out. -/
def avl_tree.get_via_root_slot [LinearOrder K] (t : avl_tree K T) (key : K) :
    Except exception T :=
  nwacc.get key t.root

/-- What a private `insert` leaves behind: the tree now stored in the slot
`current`, the member `tree_size`, and the address assigned to the member
`root` by the statement `root = current`, if that statement ran. -/
structure insert_result (K T : Type) where
  current : Tree K T
  tree_size : Int
  root : Option Nat
  deriving DecidableEq, Repr

/-- The cell at address `n` inside `t`, with the subtree it owns: what a
pointer holding `n` refers to. -/
def subtree_at (n : Nat) : Tree K T → Option (Tree K T)
  | .null => none
  | .node a e k p l r h =>
    if a = n then some (.node a e k p l r h)
    else
      match subtree_at n l with
      | some s => some s
      | none => subtree_at n r

/-- Source `avl_tree::insert(const T &&value, const K &&key, node *parent,
node *&current)`, the private move overload. -/
def insert_move [LinearOrder K] (value : T) (key : K) (a : Nat) :
    Option Nat → Tree K T → Int → Option (insert_result K T)
  | parent, .null, tree_size =>
    if parent = none then
      -- current = new node{value, key, nullptr, nullptr, nullptr};
      -- tree_size += 1; root = current;
      (balance (.node a value key none .null .null 0)).map
        fun cur => ⟨cur, tree_size + 1, some a⟩
    else
      -- current = new node{value, key, parent, nullptr, nullptr}; tree_size += 1;
      (balance (.node a value key parent .null .null 0)).map
        fun cur => ⟨cur, tree_size + 1, none⟩
  | _, .node c e k p l r h, tree_size =>
    if key < k then
      match insert_move value key a (some c) l tree_size with
      | none => none
      | some res =>
        (balance (.node c e k p res.current r h)).map
          fun cur => ⟨cur, res.tree_size, res.root⟩
    else if k < key then
      match insert_move value key a (some c) r tree_size with
      | none => none
      | some res =>
        (balance (.node c e k p l res.current h)).map
          fun cur => ⟨cur, res.tree_size, res.root⟩
    else
      -- current->element = value;
      (balance (.node c value k p l r h)).map fun cur => ⟨cur, tree_size, none⟩

/-- Source `avl_tree::insert(T &&value, const K &&key)`:
`this->insert(std::move(value), std::move(key), nullptr, this->root)`.
Here `current` is the member `root` itself, so `root = current` changes
nothing. -/
def avl_tree.insert_move [LinearOrder K] (t : avl_tree K T) (value : T) (key : K)
    (a : Nat) : Option (avl_tree K T) :=
  (nwacc.insert_move value key a none t.root t.tree_size).map
    fun res => ⟨res.current, res.tree_size⟩

/-- The tail of the private copying `insert`, reached after the if-chain:
`tree_size += 1; this->balance(current); return iterator(current);`.
`updated` is the node the call descended from, with its child slot or element
already updated; `tree_size` is the member's value at this point, and
`root_written` the address stored by `root = current` in the recursive call,
if that statement ran.  When `current` is the member `root` (`at_root`) and
`root = current` ran, then `current` now names the new cell, not the node the
call descended from. -/
def insert_copy_tail (at_root : Bool) (updated : Tree K T) (tree_size : Int)
    (root_written : Option Nat) : Option (insert_result K T) :=
  let cur : Option (Tree K T) :=
    match at_root, root_written with
    | true, some n => subtree_at n updated
    | _, _ => some updated
  match cur with
  | none => none
  | some c => (balance c).map fun b => ⟨b, tree_size + 1, root_written⟩

/-- Source `avl_tree::insert(const T &value, const K &key, node *parent,
node *&current)`, the private copying overload.  Its second test is
`current->key < value`, which compares a key with an element, so the overload
is modelled for `T = K`.  The flag `at_root` says that `current` is bound to
the member `root`. -/
def insert_copy [LinearOrder K] (value key : K) (parent : Option Nat) (a : Nat) :
    Bool → Tree K K → Int → Option (insert_result K K)
  | _, .null, tree_size =>
    if parent = none then
      -- current = new node{value, key, nullptr, nullptr, nullptr};
      -- tree_size += 1; root = current; return iterator(current);
      some ⟨.node a value key none .null .null 0, tree_size + 1, some a⟩
    else
      -- current = new node{value, key, parent, nullptr, nullptr};
      -- tree_size += 1; return iterator(current);
      some ⟨.node a value key parent .null .null 0, tree_size + 1, none⟩
  | at_root, .node c e k p l r h, tree_size =>
    if key < k then
      -- this->insert(value, key, parent, current->left);
      match insert_copy value key parent a false l tree_size with
      | none => none
      | some res =>
        insert_copy_tail at_root (.node c e k p res.current r h) res.tree_size res.root
    else if k < value then
      -- this->insert(value, key, parent, current->right);
      match insert_copy value key parent a false r tree_size with
      | none => none
      | some res =>
        insert_copy_tail at_root (.node c e k p l res.current h) res.tree_size res.root
    else
      -- current->element = value;
      insert_copy_tail at_root (.node c value k p l r h) tree_size none

/-- Source `avl_tree::insert(const T &value, const K &key)`:
`return this->insert(value, key, nullptr, this->root)`. -/
def avl_tree.insert [LinearOrder K] (t : avl_tree K K) (value key : K) (a : Nat) :
    Option (avl_tree K K) :=
  (insert_copy value key none a true t.root t.tree_size).map
    fun res => ⟨res.current, res.tree_size⟩

/-- Source `avl_tree::remove(const T &key, node *&current)`.  The parameter
`key` is declared with the element type and compared with keys, so the
function is modelled for `T = K`.  The two descending calls are written
`this->remove(key, current->key->left)` and
`this->remove(key, current->key->right)`: they apply `->` to a key, which has
no meaning for a key that is not a pointer to a node, so on these two paths
the function has no behaviour (`none`). -/
def remove [LinearOrder K] (key : K) : Tree K K → Option (Tree K K)
  | .null => some .null
  | .node c e k p l r h =>
    if key < k then
      -- this->remove(key, current->key->left);
      none
    else if k < key then
      -- this->remove(key, current->key->right);
      none
    else if l.is_node ∧ r.is_node then
      -- current->key = this->find_min(current->right)->key;
      -- this->remove(current->key, current->right);
      match find_min r with
      | .null => none
      | .node _ _ mk _ _ _ _ =>
        match remove mk r with
        | none => none
        | some r1 => balance (.node c e mk p l r1 h)
    else
      -- old_node = current;
      -- current = (current->left != nullptr) ? current->left : current->right;
      -- delete old_node;
      balance (if l.is_node then l else r)

/-- Source `avl_tree::remove(const T &value)`: `this->remove(value, this->root)`. -/
def avl_tree.remove [LinearOrder K] (t : avl_tree K K) (value : K) :
    Option (avl_tree K K) :=
  (nwacc.remove value t.root).map fun r => ⟨r, t.tree_size⟩

/-- The removal the spec describes (section 4.2, "Locates the node by key"):
the source's `remove` with its two descending calls directed at the child
slots `current->left` and `current->right`; every other statement is the
source's.  It is the comparison point for what `remove` misses. -/
def remove_via_child_slots [LinearOrder K] (key : K) : Tree K K → Option (Tree K K)
  | .null => some .null
  | .node c e k p l r h =>
    if key < k then
      match remove_via_child_slots key l with
      | none => none
      | some l1 => balance (.node c e k p l1 r h)
    else if k < key then
      match remove_via_child_slots key r with
      | none => none
      | some r1 => balance (.node c e k p l r1 h)
    else if l.is_node ∧ r.is_node then
      match find_min r with
      | .null => none
      | .node _ _ mk _ _ _ _ =>
        match remove_via_child_slots mk r with
        | none => none
        | some r1 => balance (.node c e mk p l r1 h)
    else
      balance (if l.is_node then l else r)

/-- The public `remove` over `remove_via_child_slots`. -/
def avl_tree.remove_via_child_slots [LinearOrder K] (t : avl_tree K K) (value : K) :
    Option (avl_tree K K) :=
  (nwacc.remove_via_child_slots value t.root).map fun r => ⟨r, t.tree_size⟩

/-- The default constructor `avl_tree() : root{nullptr}` with `tree_size = 0`. -/
def avl_tree.empty_tree : avl_tree K T := ⟨.null, 0⟩

/-! ## What the claims observe -/

/-- The keys reachable from a node pointer through `left`/`right`, in order
(left subtree, node, right subtree). -/
def keys : Tree K T → List K
  | .null => []
  | .node _ _ k _ l r _ => keys l ++ k :: keys r

/-- The (key, element) pairs reachable from a node pointer, in order. -/
def entries : Tree K T → List (K × T)
  | .null => []
  | .node _ e k _ l r _ => entries l ++ (k, e) :: entries r

/-- The number of nodes reachable from a node pointer. -/
def node_count : Tree K T → Nat
  | .null => 0
  | .node _ _ _ _ l r _ => node_count l + 1 + node_count r

/-- BST ordering: at every node, every key of the left subtree is smaller than
the node's key and every key of the right subtree is greater. -/
def bst_ordering [LinearOrder K] : Tree K T → Prop
  | .null => True
  | .node _ _ k _ l r _ =>
    (∀ x ∈ keys l, x < k) ∧ (∀ x ∈ keys r, k < x) ∧ bst_ordering l ∧ bst_ordering r

/-- AVL balance on the cached heights: at every node,
`|height(left) - height(right)| <= 1`. -/
def avl_balance : Tree K T → Prop
  | .null => True
  | .node _ _ _ _ l r _ =>
    (height l - height r ≤ 1 ∧ height r - height l ≤ 1) ∧ avl_balance l ∧ avl_balance r

/-- Height correctness: at every node,
`height == 1 + max(height(left), height(right))`, with `-1` for null. -/
def height_correctness : Tree K T → Prop
  | .null => True
  | .node _ _ _ _ l r h =>
    h = 1 + max (height l) (height r) ∧ height_correctness l ∧ height_correctness r

/-- The three structural invariants of the data model together. -/
def invariants [LinearOrder K] (t : Tree K T) : Prop :=
  bst_ordering t ∧ avl_balance t ∧ height_correctness t

/-- Decision procedure for `bst_ordering`. -/
def bst_ordering.dec [LinearOrder K] : (t : Tree K T) → Decidable (bst_ordering t)
  | .null => isTrue trivial
  | .node _ _ k _ l r _ =>
    match bst_ordering.dec l, bst_ordering.dec r with
    | isTrue hl, isTrue hr =>
      if h1 : ∀ x ∈ keys l, x < k then
        if h2 : ∀ x ∈ keys r, k < x then isTrue ⟨h1, h2, hl, hr⟩
        else isFalse fun h => h2 h.2.1
      else isFalse fun h => h1 h.1
    | isFalse hl, _ => isFalse fun h => hl h.2.2.1
    | _, isFalse hr => isFalse fun h => hr h.2.2.2

instance [LinearOrder K] (t : Tree K T) : Decidable (bst_ordering t) := bst_ordering.dec t

/-- Decision procedure for `avl_balance`. -/
def avl_balance.dec : (t : Tree K T) → Decidable (avl_balance t)
  | .null => isTrue trivial
  | .node _ _ _ _ l r _ =>
    match avl_balance.dec l, avl_balance.dec r with
    | isTrue hl, isTrue hr =>
      if h1 : height l - height r ≤ 1 ∧ height r - height l ≤ 1 then isTrue ⟨h1, hl, hr⟩
      else isFalse fun h => h1 h.1
    | isFalse hl, _ => isFalse fun h => hl h.2.1
    | _, isFalse hr => isFalse fun h => hr h.2.2

instance (t : Tree K T) : Decidable (avl_balance t) := avl_balance.dec t

/-- Decision procedure for `height_correctness`. -/
def height_correctness.dec : (t : Tree K T) → Decidable (height_correctness t)
  | .null => isTrue trivial
  | .node _ _ _ _ l r h =>
    match height_correctness.dec l, height_correctness.dec r with
    | isTrue hl, isTrue hr =>
      if h1 : h = 1 + max (height l) (height r) then isTrue ⟨h1, hl, hr⟩
      else isFalse fun h => h1 h.1
    | isFalse hl, _ => isFalse fun h => hl h.2.1
    | _, isFalse hr => isFalse fun h => hr h.2.2

instance (t : Tree K T) : Decidable (height_correctness t) := height_correctness.dec t

instance [LinearOrder K] (t : Tree K T) : Decidable (invariants t) := by
  unfold invariants; infer_instance

/-- A run of calls of the public move overload, each given as (value, key,
address handed out by `new` if the call allocates). -/
def avl_tree.insert_move_all [LinearOrder K] :
    List (T × K × Nat) → avl_tree K T → Option (avl_tree K T)
  | [], t => some t
  | (value, key, a) :: rest, t =>
    match t.insert_move value key a with
    | none => none
    | some t1 => avl_tree.insert_move_all rest t1

/-- The overwrite the spec describes for an existing key: the tree with the
element of the node found by the descent for `key` replaced by `value`, every
other field of every node as before. -/
def store_element [LinearOrder K] (key : K) (value : T) : Tree K T → Tree K T
  | .null => .null
  | .node a e k p l r h =>
    if key < k then .node a e k p (store_element key value l) r h
    else if k < key then .node a e k p l (store_element key value r) h
    else .node a value k p l r h

/-- Example state: the one-node tree, key 10 with element 1 in cell 1. -/
def one_node : avl_tree Int Int :=
  ⟨.node 1 1 10 none .null .null 0, 1⟩

/-- Example state: the tree 10 (-, 20) with elements 1, 2 in cells 1, 2. -/
def two_nodes : avl_tree Int Int :=
  ⟨.node 1 1 10 none .null (.node 2 2 20 (some 1) .null .null 0) 1, 2⟩

/-- Example state: the tree 20 (10, 30) with elements 2, 1, 3 in cells 2, 1, 3. -/
def three_nodes : avl_tree Int Int :=
  ⟨.node 2 2 20 none (.node 1 1 10 (some 2) .null .null 0)
    (.node 3 3 30 (some 2) .null .null 0) 1, 3⟩

/-- Example state: the tree 20 (10 (5, 15), 30) with elements 2, 1, 4, 5, 3 in
cells 2, 1, 4, 5, 3. -/
def five_nodes : avl_tree Int Int :=
  ⟨.node 2 2 20 none
    (.node 1 1 10 (some 2) (.node 4 4 5 (some 1) .null .null 0)
      (.node 5 5 15 (some 1) .null .null 0) 1)
    (.node 3 3 30 (some 2) .null .null 0) 2, 5⟩

/-- Example state: the tree 20 (10 (5, -), 30) with elements 2, 1, 4, 3 in
cells 2, 1, 4, 3. -/
def four_nodes : avl_tree Int Int :=
  ⟨.node 2 2 20 none (.node 1 1 10 (some 2) (.node 4 4 5 (some 1) .null .null 0) .null 1)
    (.node 3 3 30 (some 2) .null .null 0) 2, 4⟩

/-- The postcondition of a map update, on the in-order entries: `after` holds
`(key, value)`, and for every other key exactly the entries of `before`. -/
def updated_entries (key : K) (value : T) (before after : List (K × T)) : Prop :=
  ∀ k' v', (k', v') ∈ after ↔ (k' = key ∧ v' = value) ∨ (k' ≠ key ∧ (k', v') ∈ before)

/-! ## Parent links, extremes, teardown and copy -/

/-- Parent consistency below a slot: the node in the slot names `holder` (the
node whose child slot it is, `none` for the member `root`) as its parent, and
so on for the nodes below it. -/
def parent_consistent : Option Nat → Tree K T → Prop
  | _, .null => True
  | holder, .node a _ _ p l r _ =>
    p = holder ∧ parent_consistent (some a) l ∧ parent_consistent (some a) r

/-- Decision procedure for `parent_consistent`. -/
def parent_consistent.dec : (holder : Option Nat) → (t : Tree K T) →
    Decidable (parent_consistent holder t)
  | _, .null => isTrue trivial
  | holder, .node a _ _ p l r _ =>
    match parent_consistent.dec (some a) l, parent_consistent.dec (some a) r with
    | isTrue hl, isTrue hr =>
      if h1 : p = holder then isTrue ⟨h1, hl, hr⟩ else isFalse fun h => h1 h.1
    | isFalse hl, _ => isFalse fun h => hl h.2.1
    | _, isFalse hr => isFalse fun h => hr h.2.2

instance (holder : Option Nat) (t : Tree K T) : Decidable (parent_consistent holder t) :=
  parent_consistent.dec holder t

/-- Source `avl_tree::find_max(node *current)`: the rightmost node (returned
with the subtree it owns), `null` for the empty tree.  The `while` loop over
`current->right` is the recursion. -/
def find_max : Tree K T → Tree K T
  | .null => .null
  | .node a e k p l .null h => .node a e k p l .null h
  | .node _ _ _ _ _ (.node ra re rk rp rl rr rh) _ => find_max (.node ra re rk rp rl rr rh)

/-- Source `avl_tree::first_element()`: `iterator(find_min(this->root))`.  A
cursor is the address it holds (`none` is `nullptr`). -/
def avl_tree.first_element (t : avl_tree K T) : Option Nat := (find_min t.root).ptr

/-- Source `avl_tree::last_element()`: `iterator(find_max(this->root))`. -/
def avl_tree.last_element (t : avl_tree K T) : Option Nat := (find_max t.root).ptr

/-- Source `avl_tree::begin()`: `iterator(nullptr)`. -/
def avl_tree.begin_cursor (_t : avl_tree K T) : Option Nat := none

/-- Source `avl_tree::end()`: `iterator(nullptr)`. -/
def avl_tree.end_cursor (_t : avl_tree K T) : Option Nat := none

/-- Source `avl_tree::empty(node *&current)`: the addresses passed to `delete`,
in the order of the calls, and the slot afterwards (`current = nullptr`). -/
def empty : Tree K T → List Nat × Tree K T
  | .null => ([], .null)
  | .node a _ _ _ l r _ => ((empty l).1 ++ (empty r).1 ++ [a], .null)

/-- Source `avl_tree::empty()`: `this->empty(this->root)`. -/
def avl_tree.empty (t : avl_tree K T) : avl_tree K T := ⟨(nwacc.empty t.root).2, t.tree_size⟩

/-- Source `avl_tree::is_empty()`: `this->root == nullptr`. -/
def avl_tree.is_empty (t : avl_tree K T) : Bool := !t.root.is_node

/-- Source `avl_tree::clone(node *current)`.  For a node the source builds
`new node{current->element, clone->key, clone->parent, clone(current->left),
clone(current->right), current->height}`: the second and third argument apply
`->` to the member function `clone` itself, which has no meaning, so the
function has no behaviour on a node (`none`). -/
def clone : Tree K T → Option (Tree K T)
  | .null => some .null
  | .node _ _ _ _ _ _ _ => none

/-- Source copy constructor `avl_tree(const avl_tree &rhs)`:
`root{nullptr}`, then `this->root = this->clone(rhs.root)`; `tree_size` keeps
its member initialiser 0. -/
def avl_tree.copy_construct (rhs : avl_tree K T) : Option (avl_tree K T) :=
  (clone rhs.root).map fun r => ⟨r, 0⟩

/-- The comparison point for `clone`: the same construction with `clone->key`
and `clone->parent` read as `current->key` and `current->parent`.  The copy of
the cell at address `n` is allocated at address `fresh n`. -/
def clone_from_current (fresh : Nat → Nat) : Tree K T → Tree K T
  | .null => .null
  | .node a e k p l r h =>
    .node (fresh a) e k p (clone_from_current fresh l) (clone_from_current fresh r) h

/-- A run of calls of the public copying overload, each given as (value, key,
address handed out by `new` if the call allocates). -/
def avl_tree.insert_all [LinearOrder K] :
    List (K × K × Nat) → avl_tree K K → Option (avl_tree K K)
  | [], t => some t
  | (value, key, a) :: rest, t =>
    match t.insert value key a with
    | none => none
    | some t1 => avl_tree.insert_all rest t1

/-- The iterator returned by the public copying `insert`: every `return` of the
private overload is `return iterator(current)`, and in the outermost call
`current` is the member `root`, so the cursor holds the address `root` holds
when the call returns. -/
def avl_tree.insert_cursor [LinearOrder K] (t : avl_tree K K) (value key : K) (a : Nat) :
    Option (Option Nat) :=
  (insert_copy value key none a true t.root t.tree_size).map fun res => res.current.ptr

/-! ## Cursors over the node cells -/

/-- The fields of one `struct node` in memory; child and parent pointers are
addresses (`none` is `nullptr`). -/
structure cell (K T : Type) where
  element : T
  key : K
  parent : Option Nat
  left : Option Nat
  right : Option Nat
  height : Int
  deriving DecidableEq, Repr

/-- The node cells a tree occupies, as (address, cell) pairs in order: each
child pointer is the address of the owned subtree. -/
def cells : Tree K T → List (Nat × cell K T)
  | .null => []
  | .node a e k p l r h => cells l ++ (a, ⟨e, k, p, l.ptr, r.ptr, h⟩) :: cells r

/-- Reading through a pointer: the cell at address `p`, if there is one. -/
def read (mem : List (Nat × cell K T)) (p : Nat) : Option (cell K T) :=
  mem.lookup p

/-- The assignment `p->right = v`. -/
def write_right (mem : List (Nat × cell K T)) (p : Nat) (v : Option Nat) :
    List (Nat × cell K T) :=
  mem.map fun x => if x.1 = p then (x.1, { x.2 with right := v }) else x

/-- The assignment `p->left = v`. -/
def write_left (mem : List (Nat × cell K T)) (p : Nat) (v : Option Nat) :
    List (Nat × cell K T) :=
  mem.map fun x => if x.1 = p then (x.1, { x.2 with left := v }) else x

/-- How a pointer-walking routine that is run with a step budget ends. -/
inductive outcome (α : Type) where
  | done (result : α) : outcome α
  | undefined : outcome α
  | out_of_fuel : outcome α
  deriving DecidableEq, Repr

/-- Source `iterator::find_first(node *current)` (the same in `const_iterator`):
`nullptr` for `nullptr`, else the end of the chain of `left` pointers.  The
budget bounds the depth of the recursion. -/
def find_first (mem : List (Nat × cell K T)) : Nat → Option Nat → outcome (Option Nat)
  | 0, _ => .out_of_fuel
  | _ + 1, none => .done none
  | n + 1, some c =>
    match read mem c with
    | none => .undefined
    | some cl => if cl.left = none then .done (some c) else find_first mem n cl.left

/-- Source `iterator::find_last(node *current)` (the same in `const_iterator`). -/
def find_last (mem : List (Nat × cell K T)) : Nat → Option Nat → outcome (Option Nat)
  | 0, _ => .out_of_fuel
  | _ + 1, none => .done none
  | n + 1, some c =>
    match read mem c with
    | none => .undefined
    | some cl => if cl.right = none then .done (some c) else find_last mem n cl.right

/-- The `while` loop of `operator++`:
`while (current->parent != nullptr && current == current->parent->right)
 { current->right = current->parent; }`.  The budget bounds the number of
tests of the condition; the result is the memory when the loop is left. -/
def increment_loop (current : Nat) : Nat → List (Nat × cell K T) →
    outcome (List (Nat × cell K T))
  | 0, _ => .out_of_fuel
  | n + 1, mem =>
    match read mem current with
    | none => .undefined
    | some cl =>
      match cl.parent with
      | none => .done mem
      | some p =>
        match read mem p with
        | none => .undefined
        | some pc =>
          if pc.right = some current then
            increment_loop current n (write_right mem current cl.parent)
          else .done mem

/-- Source `iterator::operator++()` (the same in `const_iterator`): the memory
and the cursor afterwards. -/
def increment (fuel : Nat) (mem : List (Nat × cell K T)) :
    Option Nat → outcome (List (Nat × cell K T) × Option Nat)
  | none => .undefined
  | some c =>
    match read mem c with
    | none => .undefined
    | some cl =>
      if cl.right ≠ none then
        -- this->current = this->find_first(this->current->right);
        match find_first mem fuel cl.right with
        | .done r => .done (mem, r)
        | .undefined => .undefined
        | .out_of_fuel => .out_of_fuel
      else
        match increment_loop c fuel mem with
        | .done mem1 =>
          -- this->current = this->current->parent;
          match read mem1 c with
          | none => .undefined
          | some c1 => .done (mem1, c1.parent)
        | .undefined => .undefined
        | .out_of_fuel => .out_of_fuel

/-- The `while` loop of `operator--`:
`while (current->parent != nullptr && current == current->parent->left)
 { current->left = current->parent; }`. -/
def decrement_loop (current : Nat) : Nat → List (Nat × cell K T) →
    outcome (List (Nat × cell K T))
  | 0, _ => .out_of_fuel
  | n + 1, mem =>
    match read mem current with
    | none => .undefined
    | some cl =>
      match cl.parent with
      | none => .done mem
      | some p =>
        match read mem p with
        | none => .undefined
        | some pc =>
          if pc.left = some current then
            decrement_loop current n (write_left mem current cl.parent)
          else .done mem

/-- Source `iterator::operator--()`: the memory and the cursor afterwards.
(`iterator` descends with `find_last`; `const_iterator` writes `this->find_max`,
which it does not declare.) -/
def decrement (fuel : Nat) (mem : List (Nat × cell K T)) :
    Option Nat → outcome (List (Nat × cell K T) × Option Nat)
  | none => .undefined
  | some c =>
    match read mem c with
    | none => .undefined
    | some cl =>
      if cl.left ≠ none then
        -- this->current = this->find_last(this->current->left);
        match find_last mem fuel cl.left with
        | .done r => .done (mem, r)
        | .undefined => .undefined
        | .out_of_fuel => .out_of_fuel
      else
        match decrement_loop c fuel mem with
        | .done mem1 =>
          -- this->current = this->current->parent;
          match read mem1 c with
          | none => .undefined
          | some c1 => .done (mem1, c1.parent)
        | .undefined => .undefined
        | .out_of_fuel => .out_of_fuel

/-- Source `iterator::get_key()`: `current->key`. -/
def get_key (mem : List (Nat × cell K T)) (current : Option Nat) : Option K :=
  match current with
  | none => none
  | some c => (read mem c).map fun cl => cl.key

/-- Source `iterator::operator*()`: `this->current->element`. -/
def dereference (mem : List (Nat × cell K T)) (current : Option Nat) : Option T :=
  match current with
  | none => none
  | some c => (read mem c).map fun cl => cl.element

/-- The `while` loop of `iterator::find_next_node`:
`while (current->parent != nullptr && current == current->parent->right)
 { current = current->parent; }`.  The budget bounds the number of tests of
the condition; the result is `current` when the loop is left. -/
def find_next_node_loop (mem : List (Nat × cell K T)) : Nat → Nat → outcome Nat
  | 0, _ => .out_of_fuel
  | n + 1, current =>
    match read mem current with
    | none => .undefined
    | some cl =>
      match cl.parent with
      | none => .done current
      | some p =>
        match read mem p with
        | none => .undefined
        | some pc =>
          if pc.right = some current then find_next_node_loop mem n p
          else .done current

/-- The `else` branch of `iterator::find_next_node`: the loop, then
`return current->parent;`. -/
def find_next_node_walk (fuel : Nat) (mem : List (Nat × cell K T)) (current : Nat) :
    outcome (Option Nat) :=
  match find_next_node_loop mem fuel current with
  | .done c1 =>
    match read mem c1 with
    | none => .undefined
    | some cl1 => .done cl1.parent
  | .undefined => .undefined
  | .out_of_fuel => .out_of_fuel

/-- Source `iterator::find_next_node(node *current)`: the helper next to
`operator++` that walks up by moving `current`, without writing. -/
def find_next_node (fuel : Nat) (mem : List (Nat × cell K T)) :
    Option Nat → outcome (Option Nat)
  | none => .undefined
  | some c =>
    match read mem c with
    | none => .undefined
    | some cl =>
      if cl.right ≠ none then
        -- return find_first(current->right);
        find_first mem fuel cl.right
      else find_next_node_walk fuel mem c

/-- The addresses of the nodes of a tree, in order. -/
def in_order_addresses : Tree K T → List Nat
  | .null => []
  | .node a _ _ _ l r _ => in_order_addresses l ++ a :: in_order_addresses r

/-- The entry that follows `a` in a list of addresses; `after` when `a` is the
last entry. -/
def next_in_order (after : Option Nat) (a : Nat) : List Nat → Option Nat
  | [] => after
  | x :: rest => if x = a then (rest.head?).or after else next_in_order after a rest

/-- The memory holds the tree: every node of the tree is read at its address
with its fields and the addresses of its children. -/
def holds_tree (mem : List (Nat × cell K T)) : Tree K T → Prop
  | .null => True
  | .node a e k p l r h =>
    read mem a = some ⟨e, k, p, l.ptr, r.ptr, h⟩ ∧ holds_tree mem l ∧ holds_tree mem r

/-! ## Basic facts about the observations -/

@[simp] theorem height_fix_parent (c : Nat) (t : Tree K T) :
    height (fix_parent c t) = height t := by
  cases t <;> rfl

@[simp] theorem entries_fix_parent (c : Nat) (t : Tree K T) :
    entries (fix_parent c t) = entries t := by
  cases t <;> rfl

@[simp] theorem avl_balance_fix_parent (c : Nat) (t : Tree K T) :
    avl_balance (fix_parent c t) ↔ avl_balance t := by
  cases t <;> simp [fix_parent, avl_balance]

@[simp] theorem height_correctness_fix_parent (c : Nat) (t : Tree K T) :
    height_correctness (fix_parent c t) ↔ height_correctness t := by
  cases t <;> simp [fix_parent, height_correctness]

theorem keys_eq_map (t : Tree K T) : keys t = (entries t).map Prod.fst := by
  induction t <;> simp_all [keys, entries]

theorem node_count_eq_length (t : Tree K T) : node_count t = (entries t).length := by
  induction t <;> simp_all [node_count, entries]; omega

theorem height_ge (t : Tree K T) (hc : height_correctness t) : -1 ≤ height t := by
  induction t with
  | null => simp [height]
  | node a e k p l r h ihl ihr =>
    simp only [height_correctness] at hc
    have := ihl hc.2.1
    show (-1 : Int) ≤ h
    omega

theorem height_node_ge (a : Nat) (e : T) (k : K) (p : Option Nat) (l r : Tree K T) (h : Int)
    (hc : height_correctness (.node a e k p l r h)) : 0 ≤ h := by
  simp only [height_correctness] at hc
  have := height_ge l hc.2.1
  omega

theorem rotate_with_left_child_entries {t t' : Tree K T}
    (h : rotate_with_left_child t = some t') :
    entries t' = entries t := by
  unfold rotate_with_left_child at h
  split at h
  · simp at h
  · simp at h
  · simp at h; subst h; simp [entries]

theorem rotate_with_right_child_entries {t t' : Tree K T}
    (h : rotate_with_right_child t = some t') :
    entries t' = entries t := by
  unfold rotate_with_right_child at h
  split at h
  · simp at h
  · simp at h
  · simp at h; subst h; simp [entries]

theorem refresh_height_entries {t t' : Tree K T} (h : refresh_height t = some t') :
    entries t' = entries t := by
  cases t <;> simp [refresh_height] at h; subst h; simp [entries]

theorem double_rotate_with_left_child_entries {t t' : Tree K T}
    (h : double_rotate_with_left_child t = some t') : entries t' = entries t := by
  unfold double_rotate_with_left_child at h
  split at h
  · simp at h
  · split at h
    · simp at h
    · rename_i cl1 hcl
      rw [rotate_with_left_child_entries h]
      simp [entries, rotate_with_right_child_entries hcl]

theorem double_rotate_with_right_child_entries {t t' : Tree K T}
    (h : double_rotate_with_right_child t = some t') : entries t' = entries t := by
  unfold double_rotate_with_right_child at h
  split at h
  · simp at h
  · split at h
    · simp at h
    · rename_i cr1 hcr
      rw [rotate_with_right_child_entries h]
      simp [entries, rotate_with_left_child_entries hcr]

theorem balance_entries {t t' : Tree K T} (h : balance t = some t') : entries t' = entries t := by
  unfold balance at h
  split at h
  · simp at h; subst h; rfl
  · split at h
    · split at h
      · simp at h
      · split at h
        · obtain ⟨u, hu, hr⟩ := Option.bind_eq_some.mp h
          rw [refresh_height_entries hr, rotate_with_left_child_entries hu]
        · obtain ⟨u, hu, hr⟩ := Option.bind_eq_some.mp h
          rw [refresh_height_entries hr, double_rotate_with_left_child_entries hu]
    · split at h
      · split at h
        · simp at h
        · split at h
          · obtain ⟨u, hu, hr⟩ := Option.bind_eq_some.mp h
            rw [refresh_height_entries hr, rotate_with_right_child_entries hu]
          · obtain ⟨u, hu, hr⟩ := Option.bind_eq_some.mp h
            rw [refresh_height_entries hr, double_rotate_with_right_child_entries hu]
      · exact refresh_height_entries h

theorem height_null_of_lt {t : Tree K T} (hc : height_correctness t) (h : height t < 0) :
    t = .null := by
  cases t with
  | null => rfl
  | node a e k p l r hh =>
    have := height_node_ge a e k p l r hh hc
    change hh < 0 at h; omega

@[simp] theorem height_null : height (Tree.null : Tree K T) = -1 := rfl

@[simp] theorem height_node (a : Nat) (e : T) (k : K) (p : Option Nat) (l r : Tree K T) (h : Int) :
    height (.node a e k p l r h) = h := rfl

theorem balance_spec (a : Nat) (e : T) (k : K) (p : Option Nat) (l r : Tree K T) (h : Int)
    (hl : avl_balance l) (hlc : height_correctness l)
    (hr : avl_balance r) (hrc : height_correctness r)
    (hd1 : height l - height r ≤ 2) (hd2 : height r - height l ≤ 2) :
    ∃ t', balance (.node a e k p l r h) = some t' ∧ avl_balance t' ∧ height_correctness t' ∧
      max (height l) (height r) ≤ height t' ∧ height t' ≤ max (height l) (height r) + 1 ∧
      (height l - height r ≤ 1 → height r - height l ≤ 1 →
        t' = .node a e k p l r (max (height l) (height r) + 1)) := by
  have hlg := height_ge l hlc
  have hrg := height_ge r hrc
  by_cases c1 : height l - height r > 1
  · -- left heavy
    cases l with
    | null => simp only [height_null] at c1; omega
    | node la le lk lp ll lr lh =>
      simp only [avl_balance] at hl
      simp only [height_correctness] at hlc
      have hllg := height_ge ll hlc.2.1
      have hlrg := height_ge lr hlc.2.2
      simp only [height_node] at c1 hd1 hd2 hlg
      by_cases c2 : height ll ≥ height lr
      · simp only [balance, height_node, c1, c2, if_true, rotate_with_left_child, Option.some_bind,
            refresh_height]
        refine ⟨_, rfl, ?_, ?_, ?_, ?_, ?_⟩
        · simp [avl_balance, hl, hr]; omega
        · simp [height_correctness, hlc, hrc]; omega
        · simp; omega
        · simp; omega
        · intro h1; omega
      · cases lr with
        | null => simp only [height_null] at c2; omega
        | node ra re rk rp rl rr rh =>
          simp only [avl_balance] at hl
          simp only [height_correctness] at hlc
          have hrlg := height_ge rl hlc.2.2.2.1
          have hrrg := height_ge rr hlc.2.2.2.2
          simp only [height_node] at c2 hl hlc
          simp only [balance, height_node, c1, c2, if_true, if_false, double_rotate_with_left_child,
              rotate_with_right_child, rotate_with_left_child, Option.some_bind, refresh_height]
          refine ⟨_, rfl, ?_, ?_, ?_, ?_, ?_⟩
          · simp [avl_balance, hl, hr]; omega
          · simp [height_correctness, hlc, hrc]; omega
          · simp; omega
          · simp; omega
          · intro h1; omega
  · by_cases c3 : height r - height l > 1
    · cases r with
      | null => simp only [height_null] at c3; omega
      | node ra re rk rp rl rr rh =>
        simp only [avl_balance] at hr
        simp only [height_correctness] at hrc
        have hrlg := height_ge rl hrc.2.1
        have hrrg := height_ge rr hrc.2.2
        simp only [height_node] at c1 c3 hd1 hd2 hrg
        by_cases c2 : height rr ≥ height rl
        · simp only [balance, height_node, c1, c3, c2, if_true, if_false, rotate_with_right_child,
              Option.some_bind, refresh_height]
          refine ⟨_, rfl, ?_, ?_, ?_, ?_, ?_⟩
          · simp [avl_balance, hl, hr]; omega
          · simp [height_correctness, hlc, hrc]; omega
          · simp; omega
          · simp; omega
          · intro _ h1; omega
        · cases rl with
          | null => simp only [height_null] at c2; omega
          | node la le lk lp ll lr lh =>
            simp only [avl_balance] at hr
            simp only [height_correctness] at hrc
            have hllg := height_ge ll hrc.2.1.2.1
            have hlrg := height_ge lr hrc.2.1.2.2
            simp only [height_node] at c2 hr hrc
            simp only [balance, height_node, c1, c3, c2, if_true, if_false,
                double_rotate_with_right_child,
                rotate_with_right_child, rotate_with_left_child, Option.some_bind, refresh_height]
            refine ⟨_, rfl, ?_, ?_, ?_, ?_, ?_⟩
            · simp [avl_balance, hl, hr]; omega
            · simp [height_correctness, hlc, hrc]; omega
            · simp; omega
            · simp; omega
            · intro _ h1; omega
    · simp only [balance, c1, c3, if_false, refresh_height]
      refine ⟨_, rfl, ?_, ?_, ?_, ?_, ?_⟩
      · simp [avl_balance, hl, hr]; omega
      · simp [height_correctness, hlc, hrc]; omega
      · simp
      · simp
      · intros; rfl

/-! ## Ordering and lookup -/

@[simp] theorem keys_null : keys (Tree.null : Tree K T) = [] := rfl

@[simp] theorem keys_node (a : Nat) (e : T) (k : K) (p : Option Nat) (l r : Tree K T) (h : Int) :
    keys (.node a e k p l r h) = keys l ++ k :: keys r := rfl

@[simp] theorem entries_null : entries (Tree.null : Tree K T) = [] := rfl

@[simp] theorem entries_node (a : Nat) (e : T) (k : K) (p : Option Nat) (l r : Tree K T) (h : Int) :
    entries (.node a e k p l r h) = entries l ++ (k, e) :: entries r := rfl

theorem mem_keys_iff (t : Tree K T) (k : K) : k ∈ keys t ↔ ∃ v, (k, v) ∈ entries t := by
  rw [keys_eq_map]; simp

theorem mem_keys_of_mem_entries {t : Tree K T} {k : K} {v : T} (h : (k, v) ∈ entries t) :
    k ∈ keys t := (mem_keys_iff t k).mpr ⟨v, h⟩

theorem balance_keys {t t' : Tree K T} (h : balance t = some t') : keys t' = keys t := by
  rw [keys_eq_map, keys_eq_map, balance_entries h]

theorem balance_node_count {t t' : Tree K T} (h : balance t = some t') :
    node_count t' = node_count t := by
  rw [node_count_eq_length, node_count_eq_length, balance_entries h]

theorem bst_ordering_iff_sorted [LinearOrder K] (t : Tree K T) :
    bst_ordering t ↔ (keys t).Pairwise (· < ·) := by
  induction t with
  | null => simp [bst_ordering]
  | node a e k p l r h ihl ihr =>
    simp only [bst_ordering, keys_node, List.pairwise_append, List.pairwise_cons, ihl, ihr,
      List.mem_cons]
    constructor
    · rintro ⟨h1, h2, h3, h4⟩
      refine ⟨h3, ⟨h2, h4⟩, ?_⟩
      rintro x hx y (rfl | hy)
      · exact h1 x hx
      · exact lt_trans (h1 x hx) (h2 y hy)
    · rintro ⟨h3, ⟨h2, h4⟩, h5⟩
      exact ⟨fun x hx => h5 x hx k (Or.inl rfl), h2, h3, h4⟩

theorem balance_bst_ordering [LinearOrder K] {t t' : Tree K T} (h : balance t = some t')
    (hb : bst_ordering t) : bst_ordering t' := by
  rw [bst_ordering_iff_sorted] at hb ⊢
  rwa [balance_keys h]

theorem get_error_of_not_mem [LinearOrder K] (t : Tree K T) (k : K) (h : k ∉ keys t) :
    get k t = .error .length_error := by
  induction t with
  | null => rfl
  | node a e k0 p l r hh ihl ihr =>
    simp only [keys_node, List.mem_append, List.mem_cons, not_or] at h
    unfold get
    split_ifs with h1 h2
    · exact ihl h.1
    · exact ihr h.2.2
    · exact absurd (le_antisymm (not_lt.mp h2) (not_lt.mp h1)) h.2.1

theorem get_ok_of_mem [LinearOrder K] (t : Tree K T) (hb : bst_ordering t) (k : K) (v : T)
    (h : (k, v) ∈ entries t) : get k t = .ok v := by
  induction t with
  | null => simp at h
  | node a e k0 p l r hh ihl ihr =>
    simp only [bst_ordering] at hb
    simp only [entries_node, List.mem_append, List.mem_cons, Prod.mk.injEq] at h
    unfold get
    rcases h with h | ⟨rfl, rfl⟩ | h
    · have := hb.1 k (mem_keys_of_mem_entries h)
      rw [if_pos this]; exact ihl hb.2.2.1 h
    · simp
    · have := hb.2.1 k (mem_keys_of_mem_entries h)
      rw [if_neg (lt_asymm this), if_pos this]; exact ihr hb.2.2.2 h

theorem get_error_iff [LinearOrder K] (t : Tree K T) (hb : bst_ordering t) (k : K) :
    get k t = .error .length_error ↔ k ∉ keys t := by
  constructor
  · intro h hk
    obtain ⟨v, hv⟩ := (mem_keys_iff t k).mp hk
    rw [get_ok_of_mem t hb k v hv] at h
    cases h
  · exact get_error_of_not_mem t k

theorem get_ok_iff [LinearOrder K] (t : Tree K T) (hb : bst_ordering t) (k : K) (v : T) :
    get k t = .ok v ↔ (k, v) ∈ entries t := by
  constructor
  · intro h
    by_cases hk : k ∈ keys t
    · obtain ⟨w, hw⟩ := (mem_keys_iff t k).mp hk
      have := get_ok_of_mem t hb k w hw
      rw [this] at h
      cases h
      exact hw
    · rw [get_error_of_not_mem t k hk] at h
      cases h
  · exact get_ok_of_mem t hb k v

/-- Two BST-ordered trees with the same entries answer every `get` alike. -/
theorem get_congr [LinearOrder K] {t t' : Tree K T} (hb : bst_ordering t) (hb' : bst_ordering t')
    (k : K) (h : ∀ v, (k, v) ∈ entries t' ↔ (k, v) ∈ entries t) : get k t' = get k t := by
  by_cases hk : k ∈ keys t
  · obtain ⟨w, hw⟩ := (mem_keys_iff t k).mp hk
    rw [get_ok_of_mem t hb k w hw, get_ok_of_mem t' hb' k w ((h w).mpr hw)]
  · have hk' : k ∉ keys t' := by
      intro hk'
      obtain ⟨w, hw⟩ := (mem_keys_iff t' k).mp hk'
      exact hk (mem_keys_of_mem_entries ((h w).mp hw))
    rw [get_error_of_not_mem t k hk, get_error_of_not_mem t' k hk']

/-! ## The move overload of insert -/

@[simp] theorem node_count_null : node_count (Tree.null : Tree K T) = 0 := rfl

@[simp] theorem node_count_node (a : Nat) (e : T) (k : K) (p : Option Nat) (l r : Tree K T)
    (h : Int) : node_count (.node a e k p l r h) = node_count l + 1 + node_count r := rfl

theorem updated_entries_keys {key : K} {value : T} {t t' : Tree K T}
    (h : updated_entries key value (entries t) (entries t')) (x : K) :
    x ∈ keys t' ↔ x = key ∨ x ∈ keys t := by
  rw [mem_keys_iff, mem_keys_iff]
  constructor
  · rintro ⟨v, hv⟩
    rcases (h x v).mp hv with ⟨rfl, _⟩ | ⟨_, h2⟩
    · exact Or.inl rfl
    · exact Or.inr ⟨v, h2⟩
  · rintro (rfl | ⟨v, hv⟩)
    · exact ⟨value, (h x value).mpr (Or.inl ⟨rfl, rfl⟩)⟩
    · by_cases hx : x = key
      · exact ⟨value, (h x value).mpr (Or.inl ⟨hx, rfl⟩)⟩
      · exact ⟨v, (h x v).mpr (Or.inr ⟨hx, hv⟩)⟩

theorem balance_leaf (a : Nat) (e : T) (k : K) (p : Option Nat) (h : Int) :
    balance (.node a e k p .null .null h) = some (.node a e k p .null .null 0) := by
  simp [balance, refresh_height]

theorem insert_move_spec [LinearOrder K] (value : T) (key : K) (a : Nat) (t : Tree K T)
    (parent : Option Nat) (ts : Int)
    (hb : bst_ordering t) (ha : avl_balance t) (hc : height_correctness t) :
    ∃ res, insert_move value key a parent t ts = some res ∧
      bst_ordering res.current ∧ avl_balance res.current ∧ height_correctness res.current ∧
      (height res.current = height t ∨ height res.current = height t + 1) ∧
      updated_entries key value (entries t) (entries res.current) ∧
      res.tree_size = ts + (if key ∈ keys t then 0 else 1) ∧
      (node_count res.current : Int) = node_count t + (if key ∈ keys t then 0 else 1) := by
  induction t generalizing parent ts with
  | null =>
    have hres : ∃ r, insert_move value key a parent .null ts
        = some ⟨.node a value key parent .null .null 0, ts + 1, r⟩ := by
      unfold insert_move
      by_cases hp : parent = none
      · subst hp; exact ⟨some a, by simp [balance_leaf]⟩
      · exact ⟨none, by simp [hp, balance_leaf]⟩
    obtain ⟨r, hr⟩ := hres
    refine ⟨_, hr, ?_, ?_, ?_, ?_, ?_, ?_, ?_⟩
    · simp [bst_ordering]
    · simp [avl_balance]
    · simp [height_correctness]
    · right; simp
    · intro k' v'; simp
    · simp
    · simp
  | node c e k0 p l r h ihl ihr =>
    simp only [bst_ordering] at hb
    simp only [avl_balance] at ha
    simp only [height_correctness] at hc
    obtain ⟨hb1, hb2, hbl, hbr⟩ := hb
    obtain ⟨⟨ha1, ha2⟩, hal, har⟩ := ha
    obtain ⟨hh, hcl, hcr⟩ := hc
    by_cases h1 : key < k0
    · obtain ⟨res, hres, rb, ra, rc, rh, re, rs, rn⟩ := ihl (some c) ts hbl hal hcl
      obtain ⟨t', ht', ta, tc, th1, th2, th3⟩ :=
        balance_spec c e k0 p res.current r h ra rc har hcr (by omega) (by omega)
      have hkl := updated_entries_keys re
      have hnr : key ∉ keys r := fun hx => lt_asymm h1 (hb2 key hx)
      have hmem : key ∈ keys (Tree.node c e k0 p l r h) ↔ key ∈ keys l := by
        simp [ne_of_lt h1, hnr]
      refine ⟨⟨t', res.tree_size, res.root⟩, ?_, ?_, ta, tc, ?_, ?_, ?_, ?_⟩
      · unfold insert_move; simp [h1, hres, ht']
      · apply balance_bst_ordering ht'
        simp only [bst_ordering]
        refine ⟨?_, hb2, rb, hbr⟩
        intro x hx
        rcases (hkl x).mp hx with rfl | hx
        · exact h1
        · exact hb1 x hx
      · simp only [height_node]
        by_cases hd : height res.current - height r ≤ 1 ∧ height r - height res.current ≤ 1
        · have := th3 hd.1 hd.2
          subst this
          simp only [height_node]; omega
        · omega
      · intro k' v'
        show (k', v') ∈ entries t' ↔ _
        rw [balance_entries ht']
        simp only [entries_node, List.mem_append, List.mem_cons, Prod.mk.injEq, re k' v']
        constructor
        · rintro ((h | h) | ⟨rfl, rfl⟩ | h)
          · exact Or.inl h
          · exact Or.inr ⟨h.1, Or.inl h.2⟩
          · exact Or.inr ⟨ne_of_gt h1, Or.inr (Or.inl ⟨rfl, rfl⟩)⟩
          · refine Or.inr ⟨?_, Or.inr (Or.inr h)⟩
            rintro rfl
            exact hnr (mem_keys_of_mem_entries h)
        · rintro (h | ⟨hne, h | h | h⟩)
          · exact Or.inl (Or.inl h)
          · exact Or.inl (Or.inr ⟨hne, h⟩)
          · exact Or.inr (Or.inl h)
          · exact Or.inr (Or.inr h)
      · show res.tree_size = _
        rw [rs]; simp only [hmem]
      · show (node_count t' : Int) = _
        rw [balance_node_count ht']
        simp only [hmem, node_count_node]
        push_cast
        omega
    · by_cases h2 : k0 < key
      · obtain ⟨res, hres, rb, ra, rc, rh, re, rs, rn⟩ := ihr (some c) ts hbr har hcr
        obtain ⟨t', ht', ta, tc, th1, th2, th3⟩ :=
          balance_spec c e k0 p l res.current h hal hcl ra rc (by omega) (by omega)
        have hkl := updated_entries_keys re
        have hnl : key ∉ keys l := fun hx => lt_asymm h2 (hb1 key hx)
        have hmem : key ∈ keys (Tree.node c e k0 p l r h) ↔ key ∈ keys r := by
          simp [ne_of_gt h2, hnl]
        refine ⟨⟨t', res.tree_size, res.root⟩, ?_, ?_, ta, tc, ?_, ?_, ?_, ?_⟩
        · unfold insert_move; simp [h1, h2, hres, ht']
        · apply balance_bst_ordering ht'
          simp only [bst_ordering]
          refine ⟨hb1, ?_, hbl, rb⟩
          intro x hx
          rcases (hkl x).mp hx with rfl | hx
          · exact h2
          · exact hb2 x hx
        · simp only [height_node]
          by_cases hd : height l - height res.current ≤ 1 ∧ height res.current - height l ≤ 1
          · have := th3 hd.1 hd.2
            subst this
            simp only [height_node]; omega
          · omega
        · intro k' v'
          show (k', v') ∈ entries t' ↔ _
          rw [balance_entries ht']
          simp only [entries_node, List.mem_append, List.mem_cons, Prod.mk.injEq, re k' v']
          constructor
          · rintro (h | ⟨rfl, rfl⟩ | h | h)
            · refine Or.inr ⟨?_, Or.inl h⟩
              rintro rfl
              exact hnl (mem_keys_of_mem_entries h)
            · exact Or.inr ⟨ne_of_lt h2, Or.inr (Or.inl ⟨rfl, rfl⟩)⟩
            · exact Or.inl h
            · exact Or.inr ⟨h.1, Or.inr (Or.inr h.2)⟩
          · rintro (h | ⟨hne, h | h | h⟩)
            · exact Or.inr (Or.inr (Or.inl h))
            · exact Or.inl h
            · exact Or.inr (Or.inl h)
            · exact Or.inr (Or.inr (Or.inr ⟨hne, h⟩))
        · show res.tree_size = _
          rw [rs]; simp only [hmem]
        · show (node_count t' : Int) = _
          rw [balance_node_count ht']
          simp only [hmem, node_count_node]
          push_cast
          omega
      · have hk : key = k0 := le_antisymm (not_lt.mp h2) (not_lt.mp h1)
        subst hk
        obtain ⟨t', ht', ta, tc, th1, th2, th3⟩ :=
          balance_spec c value key p l r h hal hcl har hcr (by omega) (by omega)
        have := th3 ha1 ha2
        subst this
        have hnl : key ∉ keys l := fun hx => lt_irrefl _ (hb1 key hx)
        have hnr : key ∉ keys r := fun hx => lt_irrefl _ (hb2 key hx)
        refine ⟨⟨_, ts, none⟩, ?_, ?_, ta, tc, ?_, ?_, ?_, ?_⟩
        · unfold insert_move; simp [ht']
        · simp only [bst_ordering]; exact ⟨hb1, hb2, hbl, hbr⟩
        · left; simp only [height_node]; omega
        · intro k' v'
          simp only [entries_node, List.mem_append, List.mem_cons, Prod.mk.injEq]
          constructor
          · rintro (h | ⟨rfl, rfl⟩ | h)
            · refine Or.inr ⟨?_, Or.inl h⟩
              rintro rfl
              exact hnl (mem_keys_of_mem_entries h)
            · exact Or.inl ⟨rfl, rfl⟩
            · refine Or.inr ⟨?_, Or.inr (Or.inr h)⟩
              rintro rfl
              exact hnr (mem_keys_of_mem_entries h)
          · rintro (h | ⟨hne, h | h | h⟩)
            · exact Or.inr (Or.inl h)
            · exact Or.inl h
            · exact absurd h.1 hne
            · exact Or.inr (Or.inr h)
        · simp
        · simp

/-! ## Removal through the child slots -/

theorem balance_id (t : Tree K T) (ha : avl_balance t) (hc : height_correctness t) :
    balance t = some t := by
  cases t with
  | null => rfl
  | node a e k p l r h =>
    simp only [avl_balance] at ha
    simp only [height_correctness] at hc
    obtain ⟨t', ht', -, -, -, -, h3⟩ :=
      balance_spec a e k p l r h ha.2.1 hc.2.1 ha.2.2 hc.2.2 (by omega) (by omega)
    rw [ht', h3 ha.1.1 ha.1.2, hc.1, add_comm]

theorem find_min_spec [LinearOrder K] (a : Nat) (e : T) (k : K) (p : Option Nat) (l r : Tree K T)
    (h : Int) (hb : bst_ordering (.node a e k p l r h)) :
    ∃ ma me mk mp mr mh, find_min (.node a e k p l r h) = .node ma me mk mp .null mr mh ∧
      mk ∈ keys (.node a e k p l r h) ∧ ∀ x ∈ keys (.node a e k p l r h), mk ≤ x := by
  induction l generalizing a e k p r h with
  | null =>
    refine ⟨a, e, k, p, r, h, rfl, by simp, ?_⟩
    simp only [bst_ordering] at hb
    intro x hx
    simp only [keys_node, keys_null, List.nil_append, List.mem_cons] at hx
    rcases hx with rfl | hx
    · exact le_refl _
    · exact le_of_lt (hb.2.1 x hx)
  | node la le lk lp ll lr lh ihl _ =>
    simp only [bst_ordering] at hb
    obtain ⟨hb1, hb2, hbl, hbr⟩ := hb
    obtain ⟨ma, me, mk, mp, mr, mh, hf, hm, hle⟩ :=
      ihl la le lk lp lr lh (by simpa [bst_ordering] using hbl)
    refine ⟨ma, me, mk, mp, mr, mh, ?_, ?_, ?_⟩
    · rw [find_min]; exact hf
    · simp only [keys_node, List.mem_append, List.mem_cons] at hm ⊢
      exact Or.inl hm
    · intro x hx
      rw [keys_node, List.mem_append, List.mem_cons] at hx
      rcases hx with hx | rfl | hx
      · exact hle x hx
      · exact le_of_lt (hb1 mk hm)
      · exact le_of_lt (lt_trans (hb1 mk hm) (hb2 x hx))

@[simp] theorem is_node_null : (Tree.null : Tree K T).is_node = false := rfl

@[simp] theorem is_node_node (a : Nat) (e : T) (k : K) (p : Option Nat) (l r : Tree K T)
    (h : Int) : (Tree.node a e k p l r h).is_node = true := rfl

theorem remove_via_child_slots_spec [LinearOrder K] (key : K) (t : Tree K K)
    (hb : bst_ordering t) (ha : avl_balance t) (hc : height_correctness t) :
    ∃ t', remove_via_child_slots key t = some t' ∧
      bst_ordering t' ∧ avl_balance t' ∧ height_correctness t' ∧
      (height t' = height t ∨ height t' = height t - 1) ∧
      (∀ x, x ∈ keys t' ↔ x ∈ keys t ∧ x ≠ key) ∧
      node_count t' + (if key ∈ keys t then 1 else 0) = node_count t := by
  induction t generalizing key with
  | null =>
    exact ⟨.null, rfl, hb, ha, hc, Or.inl rfl, by simp, by simp⟩
  | node c e k0 p l r h ihl ihr =>
    have hbt := hb
    simp only [bst_ordering] at hb
    simp only [avl_balance] at ha
    simp only [height_correctness] at hc
    obtain ⟨hb1, hb2, hbl, hbr⟩ := hb
    obtain ⟨⟨ha1, ha2⟩, hal, har⟩ := ha
    obtain ⟨hh, hcl, hcr⟩ := hc
    have hlg := height_ge l hcl
    have hrg := height_ge r hcr
    by_cases h1 : key < k0
    · obtain ⟨l1, hl1, rb, ra, rc, rh, rk, rn⟩ := ihl key hbl hal hcl
      obtain ⟨t', ht', ta, tc, th1, th2, th3⟩ :=
        balance_spec c e k0 p l1 r h ra rc har hcr (by omega) (by omega)
      have hnr : key ∉ keys r := fun hx => lt_asymm h1 (hb2 key hx)
      have hmem : key ∈ keys (Tree.node c e k0 p l r h) ↔ key ∈ keys l := by
        simp [ne_of_lt h1, hnr]
      refine ⟨t', ?_, ?_, ta, tc, ?_, ?_, ?_⟩
      · unfold remove_via_child_slots; simp [h1, hl1, ht']
      · apply balance_bst_ordering ht'
        simp only [bst_ordering]
        exact ⟨fun x hx => hb1 x ((rk x).mp hx).1, hb2, rb, hbr⟩
      · simp only [height_node]
        by_cases hd : height l1 - height r ≤ 1 ∧ height r - height l1 ≤ 1
        · have := th3 hd.1 hd.2
          subst this
          simp only [height_node]; omega
        · omega
      · intro x
        rw [balance_keys ht']
        simp only [keys_node, List.mem_append, List.mem_cons, rk x]
        constructor
        · rintro (h | rfl | h)
          · exact ⟨Or.inl h.1, h.2⟩
          · exact ⟨Or.inr (Or.inl rfl), ne_of_gt h1⟩
          · exact ⟨Or.inr (Or.inr h), fun hx => hnr (hx ▸ h)⟩
        · rintro ⟨h | h | h, hne⟩
          · exact Or.inl ⟨h, hne⟩
          · exact Or.inr (Or.inl h)
          · exact Or.inr (Or.inr h)
      · rw [balance_node_count ht']
        simp only [hmem, node_count_node]
        omega
    · by_cases h2 : k0 < key
      · obtain ⟨r1, hr1, rb, ra, rc, rh, rk, rn⟩ := ihr key hbr har hcr
        obtain ⟨t', ht', ta, tc, th1, th2, th3⟩ :=
          balance_spec c e k0 p l r1 h hal hcl ra rc (by omega) (by omega)
        have hnl : key ∉ keys l := fun hx => lt_asymm h2 (hb1 key hx)
        have hmem : key ∈ keys (Tree.node c e k0 p l r h) ↔ key ∈ keys r := by
          simp [ne_of_gt h2, hnl]
        refine ⟨t', ?_, ?_, ta, tc, ?_, ?_, ?_⟩
        · unfold remove_via_child_slots; simp [h1, h2, hr1, ht']
        · apply balance_bst_ordering ht'
          simp only [bst_ordering]
          exact ⟨hb1, fun x hx => hb2 x ((rk x).mp hx).1, hbl, rb⟩
        · simp only [height_node]
          by_cases hd : height l - height r1 ≤ 1 ∧ height r1 - height l ≤ 1
          · have := th3 hd.1 hd.2
            subst this
            simp only [height_node]; omega
          · omega
        · intro x
          rw [balance_keys ht']
          simp only [keys_node, List.mem_append, List.mem_cons, rk x]
          constructor
          · rintro (h | rfl | h)
            · exact ⟨Or.inl h, fun hx => hnl (hx ▸ h)⟩
            · exact ⟨Or.inr (Or.inl rfl), ne_of_lt h2⟩
            · exact ⟨Or.inr (Or.inr h.1), h.2⟩
          · rintro ⟨h | h | h, hne⟩
            · exact Or.inl h
            · exact Or.inr (Or.inl h)
            · exact Or.inr (Or.inr ⟨h, hne⟩)
        · rw [balance_node_count ht']
          simp only [hmem, node_count_node]
          omega
      · have hk : key = k0 := le_antisymm (not_lt.mp h2) (not_lt.mp h1)
        subst hk
        have hnl : key ∉ keys l := fun hx => lt_irrefl _ (hb1 key hx)
        have hnr : key ∉ keys r := fun hx => lt_irrefl _ (hb2 key hx)
        by_cases h3 : l.is_node = true ∧ r.is_node = true
        · -- two children
          cases r with
          | null => simp at h3
          | node ra re rk rp rl rr rh =>
            obtain ⟨ma, me, mk, mp, mr, mh, hf, hm, hle⟩ := find_min_spec ra re rk rp rl rr rh hbr
            obtain ⟨r1, hr1, rb, ra', rc, rhh, rks, rn⟩ := ihr mk hbr har hcr
            obtain ⟨t', ht', ta, tc, th1, th2, th3⟩ :=
              balance_spec c e mk p l r1 h hal hcl ra' rc (by omega) (by omega)
            have hkm : key < mk := hb2 mk hm
            refine ⟨t', ?_, ?_, ta, tc, ?_, ?_, ?_⟩
            · unfold remove_via_child_slots; simp [h3, hf, hr1, ht']
            · apply balance_bst_ordering ht'
              simp only [bst_ordering]
              refine ⟨fun x hx => lt_trans (hb1 x hx) hkm, ?_, hbl, rb⟩
              intro x hx
              have := (rks x).mp hx
              exact lt_of_le_of_ne (hle x this.1) (Ne.symm this.2)
            · simp only [height_node]
              by_cases hd : height l - height r1 ≤ 1 ∧ height r1 - height l ≤ 1
              · have := th3 hd.1 hd.2
                subst this
                simp only [height_node]; omega
              · omega
            · intro x
              rw [balance_keys ht']
              simp only [keys_node, List.mem_append, List.mem_cons, rks x] at hm ⊢
              constructor
              · rintro (h | rfl | h)
                · exact ⟨Or.inl h, fun hx => hnl (hx ▸ h)⟩
                · exact ⟨Or.inr (Or.inr hm), ne_of_gt hkm⟩
                · exact ⟨Or.inr (Or.inr h.1), fun hx => hnr (hx ▸ (by simpa using h.1))⟩
              · rintro ⟨h | h | h, hne⟩
                · exact Or.inl h
                · exact absurd h hne
                · by_cases hx : x = mk
                  · exact Or.inr (Or.inl hx)
                  · exact Or.inr (Or.inr ⟨h, hx⟩)
            · rw [balance_node_count ht']
              simp only [node_count_node, if_pos hm] at rn ⊢
              simp
              omega
        · -- at most one child
          by_cases hln : l.is_node = true
          · have hrn : r = .null := by
              cases r with
              | null => rfl
              | node _ _ _ _ _ _ _ => simp [hln] at h3
            subst hrn
            have hl0 : 0 ≤ height l := by
              cases l with
              | null => simp at hln
              | node la le lk lp ll lr lh => exact height_node_ge la le lk lp ll lr lh hcl
            refine ⟨l, ?_, hbl, hal, hcl, ?_, ?_, ?_⟩
            · unfold remove_via_child_slots; simp [hln, balance_id l hal hcl]
            · right; simp only [height_node, height_null] at hh ⊢; omega
            · intro x
              simp only [keys_node, keys_null, List.mem_append, List.mem_cons, List.mem_nil_iff,
                or_false]
              constructor
              · intro h; exact ⟨Or.inl h, fun hx => hnl (hx ▸ h)⟩
              · rintro ⟨h | h, hne⟩
                · exact h
                · exact absurd h hne
            · simp
          · have hl0 : l = .null := by
              cases l with
              | null => rfl
              | node _ _ _ _ _ _ _ => simp at hln
            subst hl0
            refine ⟨r, ?_, hbr, har, hcr, ?_, ?_, ?_⟩
            · unfold remove_via_child_slots; simp [balance_id r har hcr]
            · right; simp only [height_node, height_null] at hh ⊢; omega
            · intro x
              simp only [keys_node, keys_null, List.nil_append, List.mem_cons]
              constructor
              · intro h; exact ⟨Or.inr h, fun hx => hnr (hx ▸ h)⟩
              · rintro ⟨h | h, hne⟩
                · exact absurd h hne
                · exact h
            · simp; omega

theorem remove_via_child_slots_absent [LinearOrder K] (key : K) (t : Tree K K)
    (ha : avl_balance t) (hc : height_correctness t) (hk : key ∉ keys t) :
    remove_via_child_slots key t = some t := by
  induction t with
  | null => rfl
  | node c e k0 p l r h ihl ihr =>
    have hbal := balance_id _ ha hc
    simp only [avl_balance] at ha
    simp only [height_correctness] at hc
    simp only [keys_node, List.mem_append, List.mem_cons, not_or] at hk
    unfold remove_via_child_slots
    by_cases h1 : key < k0
    · simp [h1, ihl ha.2.1 hc.2.1 hk.1, hbal]
    · by_cases h2 : k0 < key
      · simp [h1, h2, ihr ha.2.2 hc.2.2 hk.2.2, hbal]
      · exact absurd (le_antisymm (not_lt.mp h2) (not_lt.mp h1)) hk.2.1

/-- Where the source's `remove` returns, the removal through the child slots
returns the same tree. -/
theorem remove_agrees_with_child_slots [LinearOrder K] (key : K) (t t' : Tree K K)
    (h : remove key t = some t') : remove_via_child_slots key t = some t' := by
  induction t generalizing key t' with
  | null => simpa [remove, remove_via_child_slots] using h
  | node c e k0 p l r hh ihl ihr =>
    unfold remove at h
    unfold remove_via_child_slots
    by_cases h1 : key < k0
    · simp [h1] at h
    · by_cases h2 : k0 < key
      · simp [h1, h2] at h
      · simp only [h1, h2, if_false] at h ⊢
        by_cases h3 : l.is_node = true ∧ r.is_node = true
        · simp only [h3, and_self, if_true] at h ⊢
          cases hf : find_min r with
          | null => simp [hf] at h
          | node ma me mk mp ml mr mh =>
            simp only [hf] at h ⊢
            cases hr : remove mk r with
            | none => simp [hr] at h
            | some r1 => simpa [hr, ihr mk r1 hr] using h
        · simpa [h3] using h

/-- The removal through the child slots deletes exactly the requested key: on
a tree satisfying the invariants the reachable keys afterwards are the old ones
without `k`, and one node less is reachable when `k` was stored.  At a node with
two children the cell stays in its slot with its key replaced by the minimum
key `m` of its right subtree, `m` is removed from the right subtree, and the
slot is rebalanced. -/
theorem remove_via_child_slots_deletes_key [LinearOrder K] (t : avl_tree K K) (k : K)
    (hinv : invariants t.root) :
    (∃ t', t.remove_via_child_slots k = some t' ∧
      (∀ x, x ∈ keys t'.root ↔ x ∈ keys t.root ∧ x ≠ k) ∧
      node_count t'.root + (if k ∈ keys t.root then 1 else 0) = node_count t.root) ∧
    (∀ c e p l r h, invariants (Tree.node c e k p l r h) → l.is_node = true → r.is_node = true →
      ∃ m r1, (∃ ma me mp mr mh, find_min r = .node ma me m mp .null mr mh) ∧
        m ∈ keys r ∧ (∀ x ∈ keys r, m ≤ x) ∧
        remove_via_child_slots m r = some r1 ∧ (∀ x, x ∈ keys r1 ↔ x ∈ keys r ∧ x ≠ m) ∧
        remove_via_child_slots k (.node c e k p l r h) = balance (.node c e m p l r1 h)) := by
  refine ⟨?_, ?_⟩
  · obtain ⟨hb, ha, hc⟩ := hinv
    obtain ⟨t', ht', -, -, -, -, rk, rn⟩ := remove_via_child_slots_spec k t.root hb ha hc
    exact ⟨⟨t', t.tree_size⟩, by simp [avl_tree.remove_via_child_slots, ht'], rk, rn⟩
  · intro c e p l r h hs hl hr
    obtain ⟨hb, ha, hc⟩ := hs
    simp only [bst_ordering] at hb
    simp only [avl_balance] at ha
    simp only [height_correctness] at hc
    cases r with
    | null => simp at hr
    | node ra re rk rp rl rr rh =>
      obtain ⟨ma, me, m, mp, mr, mh, hf, hm, hle⟩ := find_min_spec ra re rk rp rl rr rh hb.2.2.2
      obtain ⟨r1, hr1, -, -, -, -, rks, -⟩ :=
        remove_via_child_slots_spec m _ hb.2.2.2 ha.2.2 hc.2.2
      refine ⟨m, r1, ⟨ma, me, mp, mr, mh, hf⟩, hm, hle, hr1, rks, ?_⟩
      rw [remove_via_child_slots]
      simp [hl, hf, hr1]

/-- The removal through the child slots is a no-op on an absent key: on a tree
satisfying the invariants it returns the very same object state (every node
with all its fields and `tree_size`), so applying it twice is the same as
applying it once. -/
theorem remove_via_child_slots_absent_is_noop [LinearOrder K] (t : avl_tree K K) (k : K)
    (hinv : invariants t.root) (hk : k ∉ keys t.root) :
    t.remove_via_child_slots k = some t ∧
    (t.remove_via_child_slots k).bind (fun t' => t'.remove_via_child_slots k) =
      t.remove_via_child_slots k := by
  have h1 : t.remove_via_child_slots k = some t := by
    simp [avl_tree.remove_via_child_slots,
      remove_via_child_slots_absent k t.root hinv.2.1 hinv.2.2 hk]
  exact ⟨h1, by rw [h1, Option.some_bind, h1]⟩

/-- The removal through the child slots preserves BST ordering, AVL balance and
height correctness, and always returns on a tree satisfying them. -/
theorem remove_via_child_slots_preserves_invariants [LinearOrder K] (t : avl_tree K K) (k : K)
    (hinv : invariants t.root) :
    ∃ t', t.remove_via_child_slots k = some t' ∧ invariants t'.root := by
  obtain ⟨hb, ha, hc⟩ := hinv
  obtain ⟨t', ht', rb, ra, rc, -⟩ := remove_via_child_slots_spec k t.root hb ha hc
  exact ⟨⟨t', t.tree_size⟩, by simp [avl_tree.remove_via_child_slots, ht'], rb, ra, rc⟩

/-! ## The move overload on stored keys and on runs of calls -/

@[simp] theorem height_store_element [LinearOrder K] (key : K) (value : T) (t : Tree K T) :
    height (store_element key value t) = height t := by
  cases t with
  | null => rfl
  | node a e k p l r h => unfold store_element; split_ifs <;> rfl

theorem keys_store_element [LinearOrder K] (key : K) (value : T) (t : Tree K T) :
    keys (store_element key value t) = keys t := by
  induction t with
  | null => rfl
  | node a e k p l r h ihl ihr => unfold store_element; split_ifs <;> simp [*]

theorem avl_balance_store_element [LinearOrder K] (key : K) (value : T) (t : Tree K T)
    (ha : avl_balance t) : avl_balance (store_element key value t) := by
  induction t with
  | null => exact ha
  | node a e k p l r h ihl ihr =>
    simp only [avl_balance] at ha
    unfold store_element
    split_ifs <;> simp [avl_balance, ha, ihl ha.2.1, ihr ha.2.2]

theorem height_correctness_store_element [LinearOrder K] (key : K) (value : T) (t : Tree K T)
    (hc : height_correctness t) : height_correctness (store_element key value t) := by
  induction t with
  | null => exact hc
  | node a e k p l r h ihl ihr =>
    simp only [height_correctness] at hc
    unfold store_element
    split_ifs <;> simp [height_correctness, hc, ihl hc.2.1, ihr hc.2.2]

/-- The move overload on a key that is already stored: the result is the old
tree with only the element of the node holding the key replaced; `tree_size`
is unchanged and `root` is not assigned. -/
theorem insert_move_existing_key [LinearOrder K] (value : T) (key : K) (a : Nat) (t : Tree K T)
    (parent : Option Nat) (ts : Int)
    (hinv : invariants t) (hk : key ∈ keys t) :
    insert_move value key a parent t ts = some ⟨store_element key value t, ts, none⟩ := by
  obtain ⟨hb, ha, hc⟩ := hinv
  induction t generalizing parent with
  | null => simp at hk
  | node c e k0 p l r h ihl ihr =>
    have hbal := balance_id _ (avl_balance_store_element key value _ ha)
      (height_correctness_store_element key value _ hc)
    simp only [bst_ordering] at hb
    simp only [avl_balance] at ha
    simp only [height_correctness] at hc
    simp only [keys_node, List.mem_append, List.mem_cons] at hk
    unfold store_element at hbal ⊢
    unfold insert_move
    by_cases h1 : key < k0
    · have hkl : key ∈ keys l := by
        rcases hk with h | h | h
        · exact h
        · exact absurd h (ne_of_lt h1)
        · exact absurd (hb.2.1 key h) (lt_asymm h1)
      simp only [h1, if_true] at hbal ⊢
      simp [ihl (some c) hkl hb.2.2.1 ha.2.1 hc.2.1, hbal]
    · by_cases h2 : k0 < key
      · have hkr : key ∈ keys r := by
          rcases hk with h | h | h
          · exact absurd (hb.1 key h) (lt_asymm h2)
          · exact absurd h (ne_of_gt h2)
          · exact h
        simp only [h1, h2, if_true, if_false] at hbal ⊢
        simp [ihr (some c) hkr hb.2.2.2 ha.2.2 hc.2.2, hbal]
      · simp only [h1, h2, if_false] at hbal ⊢
        simp [hbal]

/-- The move overload counts allocations: `tree_size` and the number of
reachable nodes both grow by one for a new key and stay for a stored key. -/
theorem insert_move_size [LinearOrder K] (t : avl_tree K T) (value : T) (key : K) (a : Nat)
    (hinv : invariants t.root) :
    ∃ t', t.insert_move value key a = some t' ∧ invariants t'.root ∧
      (∀ x, x ∈ keys t'.root ↔ x = key ∨ x ∈ keys t.root) ∧
      t'.tree_size = t.tree_size + (if key ∈ keys t.root then 0 else 1) ∧
      (node_count t'.root : Int) = node_count t.root + (if key ∈ keys t.root then 0 else 1) := by
  obtain ⟨hb, ha, hc⟩ := hinv
  obtain ⟨res, hres, rb, ra, rc, -, re, rs, rn⟩ :=
    insert_move_spec value key a t.root none t.tree_size hb ha hc
  exact ⟨⟨res.current, res.tree_size⟩, by simp [avl_tree.insert_move, hres], ⟨rb, ra, rc⟩,
    updated_entries_keys re, rs, rn⟩

theorem insert_move_all_spec [LinearOrder K] (calls : List (T × K × Nat)) (t : avl_tree K T)
    (hinv : invariants t.root) (hs : t.tree_size = node_count t.root) :
    ∃ t', t.insert_move_all calls = some t' ∧ invariants t'.root ∧
      t'.tree_size = node_count t'.root ∧
      ∀ x, x ∈ keys t'.root ↔ x ∈ keys t.root ∨ x ∈ calls.map (fun c => c.2.1) := by
  induction calls generalizing t with
  | nil => exact ⟨t, rfl, hinv, hs, by simp⟩
  | cons c rest ih =>
    obtain ⟨value, key, a⟩ := c
    obtain ⟨t1, h1, inv1, k1, s1, n1⟩ := insert_move_size t value key a hinv
    obtain ⟨t', h', inv', s', k'⟩ := ih t1 inv1 (by rw [s1, n1, hs])
    refine ⟨t', by simp [avl_tree.insert_move_all, h1, h'], inv', s', ?_⟩
    intro x
    rw [k' x, k1 x]
    simp only [List.map_cons, List.mem_cons]
    tauto

theorem keys_length (t : Tree K T) : (keys t).length = node_count t := by
  rw [keys_eq_map, node_count_eq_length, List.length_map]

/-- The move overload started on the empty tree: after any run of calls
`tree_size` is the number of distinct keys in the run, and so is the number of
nodes reachable from `root`. -/
theorem insert_move_all_counts_distinct_keys [LinearOrder K] (calls : List (T × K × Nat)) :
    ∃ t', (avl_tree.empty_tree : avl_tree K T).insert_move_all calls = some t' ∧
      t'.tree_size = ((calls.map (fun c => c.2.1)).dedup.length : Int) ∧
      node_count t'.root = (calls.map (fun c => c.2.1)).dedup.length := by
  obtain ⟨t', h', inv', s', k'⟩ := insert_move_all_spec calls (avl_tree.empty_tree : avl_tree K T)
    ⟨trivial, trivial, trivial⟩ rfl
  have hn : node_count t'.root = (calls.map (fun c => c.2.1)).dedup.length := by
    rw [← keys_length]
    apply List.Perm.length_eq
    apply List.perm_of_nodup_nodup_toFinset_eq
    · exact ((bst_ordering_iff_sorted _).mp inv'.1).nodup
    · exact List.nodup_dedup _
    · ext x
      simp only [List.mem_toFinset, List.mem_dedup, k' x]
      simp [avl_tree.empty_tree]
  exact ⟨t', h', by rw [s', hn], hn⟩

/-! ## The move overload as a map -/

/-- The move overload of insert is a map update on every tree satisfying the
invariants: afterwards the private `get` from the root returns `value` for
`key`, and every other key gets the answer it got before. -/
theorem insert_move_map_update [LinearOrder K] (t : avl_tree K T) (value : T) (key : K) (a : Nat)
    (hinv : invariants t.root) :
    ∃ t', t.insert_move value key a = some t' ∧ nwacc.get key t'.root = .ok value ∧
      ∀ k', k' ≠ key → nwacc.get k' t'.root = nwacc.get k' t.root := by
  obtain ⟨hb, ha, hc⟩ := hinv
  obtain ⟨res, hres, rb, -, -, -, re, -, -⟩ :=
    insert_move_spec value key a t.root none t.tree_size hb ha hc
  refine ⟨⟨res.current, res.tree_size⟩, by simp [avl_tree.insert_move, hres], ?_, ?_⟩
  · exact get_ok_of_mem _ rb key value ((re key value).mpr (Or.inl ⟨rfl, rfl⟩))
  · intro k' hk'
    apply get_congr hb rb
    intro v
    rw [re k' v]
    simp [hk']

/-- The move overload of insert preserves BST ordering, AVL balance and height
correctness, and always returns on a tree satisfying them. -/
theorem insert_move_invariants [LinearOrder K] (t : avl_tree K T) (value : T) (key : K) (a : Nat)
    (hinv : invariants t.root) :
    ∃ t', t.insert_move value key a = some t' ∧ invariants t'.root := by
  obtain ⟨hb, ha, hc⟩ := hinv
  obtain ⟨res, hres, rb, ra, rc, -⟩ :=
    insert_move_spec value key a t.root none t.tree_size hb ha hc
  exact ⟨⟨res.current, res.tree_size⟩, by simp [avl_tree.insert_move, hres], rb, ra, rc⟩

/-- The example states are what the move overload builds from the empty tree,
and they satisfy the invariants. -/
theorem example_states_built_by_insert_move :
    (avl_tree.empty_tree : avl_tree Int Int).insert_move_all [(1, 10, 1)] = some one_node ∧
    (avl_tree.empty_tree : avl_tree Int Int).insert_move_all
      [(2, 20, 2), (1, 10, 1), (3, 30, 3)] = some three_nodes ∧
    (avl_tree.empty_tree : avl_tree Int Int).insert_move_all
      [(2, 20, 2), (1, 10, 1), (3, 30, 3), (4, 5, 4)] = some four_nodes ∧
    invariants one_node.root ∧ invariants three_nodes.root ∧ invariants four_nodes.root := by
  decide

/-! ## Parent links under rotation and insertion -/

theorem fix_parent_node (c a : Nat) (e : T) (k : K) (p : Option Nat) (l r : Tree K T) (h : Int) :
    fix_parent c (.node a e k p l r h) = .node a e k (some c) l r h := by
  unfold fix_parent
  by_cases hp : p = some c <;> simp [hp]

theorem fix_parent_parent_consistent (c : Nat) (holder : Option Nat) (t : Tree K T)
    (h : parent_consistent holder t) : parent_consistent (some c) (fix_parent c t) := by
  cases t with
  | null => trivial
  | node a e k p l r hh =>
    rw [fix_parent_node]
    simp only [parent_consistent] at h ⊢
    exact ⟨trivial, h.2.1, h.2.2⟩

theorem rotate_with_left_child_parent_consistent (holder : Option Nat) {t t' : Tree K T}
    (h : rotate_with_left_child t = some t') (hp : parent_consistent holder t) :
    parent_consistent holder t' := by
  unfold rotate_with_left_child at h
  split at h
  · simp at h
  · simp at h
  · simp only [Option.some.injEq] at h
    subst h
    simp only [parent_consistent] at hp ⊢
    obtain ⟨h1, ⟨-, h3, h4⟩, h5⟩ := hp
    exact ⟨h1, h3, trivial, fix_parent_parent_consistent _ _ _ h4,
      fix_parent_parent_consistent _ _ _ h5⟩

theorem rotate_with_right_child_parent_consistent (holder : Option Nat) {t t' : Tree K T}
    (h : rotate_with_right_child t = some t') (hp : parent_consistent holder t) :
    parent_consistent holder t' := by
  unfold rotate_with_right_child at h
  split at h
  · simp at h
  · simp at h
  · simp only [Option.some.injEq] at h
    subst h
    simp only [parent_consistent] at hp ⊢
    obtain ⟨h1, h2, -, h4, h5⟩ := hp
    exact ⟨h1, ⟨trivial, fix_parent_parent_consistent _ _ _ h2,
      fix_parent_parent_consistent _ _ _ h4⟩, h5⟩

theorem refresh_height_parent_consistent (holder : Option Nat) {t t' : Tree K T}
    (h : refresh_height t = some t') (hp : parent_consistent holder t) :
    parent_consistent holder t' := by
  cases t with
  | null => simp [refresh_height] at h
  | node a e k p l r hh =>
    simp only [refresh_height, Option.some.injEq] at h
    subst h
    exact hp

theorem double_rotate_with_left_child_parent_consistent (holder : Option Nat) {t t' : Tree K T}
    (h : double_rotate_with_left_child t = some t') (hp : parent_consistent holder t) :
    parent_consistent holder t' := by
  unfold double_rotate_with_left_child at h
  split at h
  · simp at h
  · split at h
    · simp at h
    · rename_i cl1 hcl
      apply rotate_with_left_child_parent_consistent holder h
      simp only [parent_consistent] at hp ⊢
      exact ⟨hp.1, rotate_with_right_child_parent_consistent _ hcl hp.2.1, hp.2.2⟩

theorem double_rotate_with_right_child_parent_consistent (holder : Option Nat) {t t' : Tree K T}
    (h : double_rotate_with_right_child t = some t') (hp : parent_consistent holder t) :
    parent_consistent holder t' := by
  unfold double_rotate_with_right_child at h
  split at h
  · simp at h
  · split at h
    · simp at h
    · rename_i cr1 hcr
      apply rotate_with_right_child_parent_consistent holder h
      simp only [parent_consistent] at hp ⊢
      exact ⟨hp.1, hp.2.1, rotate_with_left_child_parent_consistent _ hcr hp.2.2⟩

/-- Whatever `balance` does to a parent-consistent slot, the slot is
parent-consistent afterwards. -/
theorem balance_parent_consistent (holder : Option Nat) {t t' : Tree K T}
    (h : balance t = some t') (hp : parent_consistent holder t) :
    parent_consistent holder t' := by
  unfold balance at h
  split at h
  · simp only [Option.some.injEq] at h; subst h; trivial
  · split at h
    · split at h
      · simp at h
      · split at h
        · obtain ⟨u, hu, hr⟩ := Option.bind_eq_some.mp h
          exact refresh_height_parent_consistent _ hr
            (rotate_with_left_child_parent_consistent _ hu hp)
        · obtain ⟨u, hu, hr⟩ := Option.bind_eq_some.mp h
          exact refresh_height_parent_consistent _ hr
            (double_rotate_with_left_child_parent_consistent _ hu hp)
    · split at h
      · split at h
        · simp at h
        · split at h
          · obtain ⟨u, hu, hr⟩ := Option.bind_eq_some.mp h
            exact refresh_height_parent_consistent _ hr
              (rotate_with_right_child_parent_consistent _ hu hp)
          · obtain ⟨u, hu, hr⟩ := Option.bind_eq_some.mp h
            exact refresh_height_parent_consistent _ hr
              (double_rotate_with_right_child_parent_consistent _ hu hp)
      · exact refresh_height_parent_consistent _ h hp

/-- The private move overload keeps the slot it is called on parent-consistent
with respect to the `parent` it is given. -/
theorem insert_move_slot_parent_consistent [LinearOrder K] (value : T) (key : K) (a : Nat)
    (t : Tree K T) (parent : Option Nat) (ts : Int) (res : insert_result K T)
    (h : insert_move value key a parent t ts = some res)
    (hp : parent_consistent parent t) : parent_consistent parent res.current := by
  induction t generalizing parent ts res with
  | null =>
    unfold insert_move at h
    by_cases hpar : parent = none
    · subst hpar
      simp only [if_true, balance_leaf, Option.map_some', Option.some.injEq] at h
      subst h
      simp [parent_consistent]
    · simp only [hpar, if_false, balance_leaf, Option.map_some', Option.some.injEq] at h
      subst h
      simp [parent_consistent]
  | node c e k0 p l r hh ihl ihr =>
    simp only [parent_consistent] at hp
    obtain ⟨hp1, hpl, hpr⟩ := hp
    subst hp1
    unfold insert_move at h
    by_cases h1 : key < k0
    · simp only [h1, if_true] at h
      cases hrec : insert_move value key a (some c) l ts with
      | none => simp [hrec] at h
      | some r1 =>
        simp only [hrec, Option.map_eq_some'] at h
        obtain ⟨cur, hcur, hres⟩ := h
        subst hres
        exact balance_parent_consistent _ hcur
          ⟨rfl, ihl (some c) ts r1 hrec hpl, hpr⟩
    · by_cases h2 : k0 < key
      · simp only [h1, h2, if_true, if_false] at h
        cases hrec : insert_move value key a (some c) r ts with
        | none => simp [hrec] at h
        | some r1 =>
          simp only [hrec, Option.map_eq_some'] at h
          obtain ⟨cur, hcur, hres⟩ := h
          subst hres
          exact balance_parent_consistent _ hcur
            ⟨rfl, hpl, ihr (some c) ts r1 hrec hpr⟩
      · simp only [h1, h2, if_false, Option.map_eq_some'] at h
        obtain ⟨cur, hcur, hres⟩ := h
        subst hres
        exact balance_parent_consistent _ hcur ⟨rfl, hpl, hpr⟩

/-- The move overload sets and keeps parent links: on a parent-consistent tree
satisfying the invariants the call returns a parent-consistent tree, and the
node it allocates in an empty child slot names the node the descent came from
as its parent. -/
theorem insert_move_parent_consistent [LinearOrder K] (t : avl_tree K T) (value : T) (key : K)
    (a : Nat) (hinv : invariants t.root) (hp : parent_consistent none t.root) :
    (∃ t', t.insert_move value key a = some t' ∧ parent_consistent none t'.root) ∧
    (∀ (c : Nat) (ts : Int), insert_move value key a (some c) (.null : Tree K T) ts =
      some ⟨.node a value key (some c) .null .null 0, ts + 1, none⟩) := by
  constructor
  · obtain ⟨hb, ha, hc⟩ := hinv
    obtain ⟨res, hres, -⟩ := insert_move_spec value key a t.root none t.tree_size hb ha hc
    exact ⟨⟨res.current, res.tree_size⟩, by simp [avl_tree.insert_move, hres],
      insert_move_slot_parent_consistent value key a t.root none t.tree_size res hres hp⟩
  · intro c ts
    simp [insert_move, balance_leaf]

/-! ## The stepping loops -/

theorem read_cons (m : Nat) (c : cell K T) (rest : List (Nat × cell K T)) (q : Nat) :
    read ((m, c) :: rest) q = if q = m then some c else read rest q := by
  unfold read
  by_cases hq : q = m
  · subst hq; simp [List.lookup]
  · have : (q == m) = false := by simpa using hq
    simp [List.lookup, this, hq]

theorem write_right_cons (m : Nat) (c : cell K T) (rest : List (Nat × cell K T)) (p : Nat)
    (v : Option Nat) :
    write_right ((m, c) :: rest) p v =
      (m, if m = p then { c with right := v } else c) :: write_right rest p v := by
  unfold write_right
  by_cases hm : m = p <;> simp [hm]

theorem write_left_cons (m : Nat) (c : cell K T) (rest : List (Nat × cell K T)) (p : Nat)
    (v : Option Nat) :
    write_left ((m, c) :: rest) p v =
      (m, if m = p then { c with left := v } else c) :: write_left rest p v := by
  unfold write_left
  by_cases hm : m = p <;> simp [hm]

theorem read_write_right (mem : List (Nat × cell K T)) (p q : Nat) (v : Option Nat) :
    read (write_right mem p v) q =
      (read mem q).map fun c => if q = p then { c with right := v } else c := by
  induction mem with
  | nil => rfl
  | cons x rest ih =>
    obtain ⟨m, c⟩ := x
    rw [write_right_cons, read_cons, read_cons, ih]
    by_cases hq : q = m
    · subst hq; simp
    · simp [hq]

theorem read_write_left (mem : List (Nat × cell K T)) (p q : Nat) (v : Option Nat) :
    read (write_left mem p v) q =
      (read mem q).map fun c => if q = p then { c with left := v } else c := by
  induction mem with
  | nil => rfl
  | cons x rest ih =>
    obtain ⟨m, c⟩ := x
    rw [write_left_cons, read_cons, read_cons, ih]
    by_cases hq : q = m
    · subst hq; simp
    · simp [hq]

/-- Once the condition of the `while` loop of `operator++` holds, it holds
after the body as well, so the loop is never left: no budget is enough. -/
theorem increment_loop_never_done (c p : Nat) (fuel : Nat) (mem : List (Nat × cell K T))
    (cl pc : cell K T) (h1 : read mem c = some cl) (h2 : cl.parent = some p)
    (h3 : read mem p = some pc) (h4 : pc.right = some c) :
    increment_loop c fuel mem = .out_of_fuel := by
  induction fuel generalizing mem cl pc with
  | zero => rfl
  | succ n ih =>
    unfold increment_loop
    simp only [h1, h2, h3, h4, if_true]
    by_cases hpc : p = c
    · subst hpc
      refine ih (write_right mem p (some p)) { cl with right := some p }
        { cl with right := some p } ?_ h2 ?_ rfl
      · rw [read_write_right, h1]; simp
      · rw [read_write_right, h1]; simp
    · refine ih (write_right mem c (some p)) { cl with right := some p } pc ?_ h2 ?_ h4
      · rw [read_write_right, h1]; simp
      · rw [read_write_right, h3]; simp [hpc]

/-- The mirror image for the `while` loop of `operator--`. -/
theorem decrement_loop_never_done (c p : Nat) (fuel : Nat) (mem : List (Nat × cell K T))
    (cl pc : cell K T) (h1 : read mem c = some cl) (h2 : cl.parent = some p)
    (h3 : read mem p = some pc) (h4 : pc.left = some c) :
    decrement_loop c fuel mem = .out_of_fuel := by
  induction fuel generalizing mem cl pc with
  | zero => rfl
  | succ n ih =>
    unfold decrement_loop
    simp only [h1, h2, h3, h4, if_true]
    by_cases hpc : p = c
    · subst hpc
      refine ih (write_left mem p (some p)) { cl with left := some p }
        { cl with left := some p } ?_ h2 ?_ rfl
      · rw [read_write_left, h1]; simp
      · rw [read_write_left, h1]; simp
    · refine ih (write_left mem c (some p)) { cl with left := some p } pc ?_ h2 ?_ h4
      · rw [read_write_left, h1]; simp
      · rw [read_write_left, h3]; simp [hpc]

/-- `operator++` on a node without right child that is the right child of its
parent never returns. -/
theorem increment_never_done (c p : Nat) (fuel : Nat) (mem : List (Nat × cell K T))
    (cl pc : cell K T) (h1 : read mem c = some cl) (h0 : cl.right = none)
    (h2 : cl.parent = some p) (h3 : read mem p = some pc) (h4 : pc.right = some c) :
    increment fuel mem (some c) = .out_of_fuel := by
  unfold increment
  simp only [h1, h0, ne_eq, not_true_eq_false, if_false,
    increment_loop_never_done c p fuel mem cl pc h1 h2 h3 h4]

/-- `operator--` on a node without left child that is the left child of its
parent never returns. -/
theorem decrement_never_done (c p : Nat) (fuel : Nat) (mem : List (Nat × cell K T))
    (cl pc : cell K T) (h1 : read mem c = some cl) (h0 : cl.left = none)
    (h2 : cl.parent = some p) (h3 : read mem p = some pc) (h4 : pc.left = some c) :
    decrement fuel mem (some c) = .out_of_fuel := by
  unfold decrement
  simp only [h1, h0, ne_eq, not_true_eq_false, if_false,
    decrement_loop_never_done c p fuel mem cl pc h1 h2 h3 h4]

/-! ## The extremes -/

theorem find_max_spec [LinearOrder K] (a : Nat) (e : T) (k : K) (p : Option Nat) (l r : Tree K T)
    (h : Int) (hb : bst_ordering (.node a e k p l r h)) :
    ∃ ma me mk mp ml mh, find_max (.node a e k p l r h) = .node ma me mk mp ml .null mh ∧
      mk ∈ keys (.node a e k p l r h) ∧ ∀ x ∈ keys (.node a e k p l r h), x ≤ mk := by
  induction r generalizing a e k p l h with
  | null =>
    refine ⟨a, e, k, p, l, h, rfl, by simp, ?_⟩
    simp only [bst_ordering] at hb
    intro x hx
    simp only [keys_node, keys_null, List.mem_append, List.mem_cons, List.mem_nil_iff,
      or_false] at hx
    rcases hx with hx | rfl
    · exact le_of_lt (hb.1 x hx)
    · exact le_refl _
  | node ra re rk rp rl rr rh _ ihr =>
    simp only [bst_ordering] at hb
    obtain ⟨hb1, hb2, hbl, hbr⟩ := hb
    obtain ⟨ma, me, mk, mp, ml, mh, hf, hm, hle⟩ :=
      ihr ra re rk rp rl rh (by simpa [bst_ordering] using hbr)
    refine ⟨ma, me, mk, mp, ml, mh, ?_, ?_, ?_⟩
    · rw [find_max]; exact hf
    · simp only [keys_node, List.mem_append, List.mem_cons] at hm ⊢
      exact Or.inr (Or.inr hm)
    · intro x hx
      rw [keys_node, List.mem_append, List.mem_cons] at hx
      rcases hx with hx | rfl | hx
      · exact le_of_lt (lt_trans (hb1 x hx) (hb2 mk hm))
      · exact le_of_lt (hb2 mk hm)
      · exact hle x hx

/-! ## Stepping that returns leaves the memory alone -/

theorem increment_loop_done_memory (c : Nat) (fuel : Nat) (mem mem1 : List (Nat × cell K T))
    (h : increment_loop c fuel mem = .done mem1) : mem1 = mem := by
  cases fuel with
  | zero => simp [increment_loop] at h
  | succ n =>
    cases h1 : read mem c with
    | none => simp [increment_loop, h1] at h
    | some cl =>
      cases h2 : cl.parent with
      | none =>
        simp only [increment_loop, h1, h2, outcome.done.injEq] at h
        exact h.symm
      | some p =>
        cases h3 : read mem p with
        | none => simp [increment_loop, h1, h2, h3] at h
        | some pc =>
          by_cases h4 : pc.right = some c
          · rw [increment_loop_never_done c p (n + 1) mem cl pc h1 h2 h3 h4] at h
            cases h
          · simp only [increment_loop, h1, h2, h3, h4, if_false, outcome.done.injEq] at h
            exact h.symm

theorem decrement_loop_done_memory (c : Nat) (fuel : Nat) (mem mem1 : List (Nat × cell K T))
    (h : decrement_loop c fuel mem = .done mem1) : mem1 = mem := by
  cases fuel with
  | zero => simp [decrement_loop] at h
  | succ n =>
    cases h1 : read mem c with
    | none => simp [decrement_loop, h1] at h
    | some cl =>
      cases h2 : cl.parent with
      | none =>
        simp only [decrement_loop, h1, h2, outcome.done.injEq] at h
        exact h.symm
      | some p =>
        cases h3 : read mem p with
        | none => simp [decrement_loop, h1, h2, h3] at h
        | some pc =>
          by_cases h4 : pc.left = some c
          · rw [decrement_loop_never_done c p (n + 1) mem cl pc h1 h2 h3 h4] at h
            cases h
          · simp only [decrement_loop, h1, h2, h3, h4, if_false, outcome.done.injEq] at h
            exact h.symm

/-- Every call of `operator++` that returns leaves the memory as it was: the
calls that write are the ones that never return. -/
theorem increment_done_memory_unchanged (fuel : Nat) (mem mem1 : List (Nat × cell K T))
    (c c1 : Option Nat) (h : increment fuel mem c = .done (mem1, c1)) : mem1 = mem := by
  cases c with
  | none => simp [increment] at h
  | some a =>
    cases h1 : read mem a with
    | none => simp [increment, h1] at h
    | some cl =>
      by_cases h2 : cl.right = none
      · simp only [increment, h1, h2, ne_eq, not_true_eq_false, if_false] at h
        cases h3 : increment_loop a fuel mem with
        | done m =>
          have hm := increment_loop_done_memory a fuel mem m h3
          subst hm
          simp only [h3, h1, outcome.done.injEq, Prod.mk.injEq] at h
          exact h.1.symm
        | undefined => simp [h3] at h
        | out_of_fuel => simp [h3] at h
      · simp only [increment, h1, ne_eq, h2, not_false_eq_true, if_true] at h
        cases h3 : find_first mem fuel cl.right with
        | done r =>
          simp only [h3, outcome.done.injEq, Prod.mk.injEq] at h
          exact h.1.symm
        | undefined => simp [h3] at h
        | out_of_fuel => simp [h3] at h

/-- Every call of `operator--` that returns leaves the memory as it was. -/
theorem decrement_done_memory_unchanged (fuel : Nat) (mem mem1 : List (Nat × cell K T))
    (c c1 : Option Nat) (h : decrement fuel mem c = .done (mem1, c1)) : mem1 = mem := by
  cases c with
  | none => simp [decrement] at h
  | some a =>
    cases h1 : read mem a with
    | none => simp [decrement, h1] at h
    | some cl =>
      by_cases h2 : cl.left = none
      · simp only [decrement, h1, h2, ne_eq, not_true_eq_false, if_false] at h
        cases h3 : decrement_loop a fuel mem with
        | done m =>
          have hm := decrement_loop_done_memory a fuel mem m h3
          subst hm
          simp only [h3, h1, outcome.done.injEq, Prod.mk.injEq] at h
          exact h.1.symm
        | undefined => simp [h3] at h
        | out_of_fuel => simp [h3] at h
      · simp only [decrement, h1, ne_eq, h2, not_false_eq_true, if_true] at h
        cases h3 : find_last mem fuel cl.left with
        | done r =>
          simp only [h3, outcome.done.injEq, Prod.mk.injEq] at h
          exact h.1.symm
        | undefined => simp [h3] at h
        | out_of_fuel => simp [h3] at h


/-! ## The walk of find_next_node -/

@[simp] theorem in_order_addresses_null : in_order_addresses (Tree.null : Tree K T) = [] := rfl

@[simp] theorem in_order_addresses_node (a : Nat) (e : T) (k : K) (p : Option Nat)
    (l r : Tree K T) (h : Int) :
    in_order_addresses (.node a e k p l r h) =
      in_order_addresses l ++ a :: in_order_addresses r := rfl

theorem cells_addresses (t : Tree K T) : (cells t).map Prod.fst = in_order_addresses t := by
  induction t with
  | null => rfl
  | node a e k p l r h ihl ihr => simp [cells, ihl, ihr]

theorem ptr_mem_addresses (t : Tree K T) (a : Nat) (h : t.ptr = some a) :
    a ∈ in_order_addresses t := by
  cases t with
  | null => simp [Tree.ptr] at h
  | node c e k p l r hh =>
    simp only [Tree.ptr, Option.some.injEq] at h
    subst h
    simp

theorem next_in_order_append (after : Option Nat) (a : Nat) (xs ys : List Nat) :
    next_in_order after a (xs ++ ys) =
      if a ∈ xs then next_in_order ((ys.head?).or after) a xs
      else next_in_order after a ys := by
  induction xs with
  | nil => simp
  | cons x rest ih =>
    rw [List.cons_append]
    by_cases hx : x = a
    · subst hx
      simp only [next_in_order, if_true, List.mem_cons, true_or, List.head?_append]
      cases rest.head? <;> cases ys.head? <;> cases after <;> rfl
    · have hne : ¬ a = x := fun h => hx h.symm
      simp only [next_in_order, hx, if_false, ih, List.mem_cons, hne, false_or]

theorem find_first_leftmost (mem : List (Nat × cell K T)) (s : Tree K T)
    (hm : holds_tree mem s) (fuel : Nat) (hf : node_count s + 1 ≤ fuel) :
    find_first mem fuel s.ptr = .done (in_order_addresses s).head? := by
  induction s generalizing fuel with
  | null =>
    obtain ⟨n, rfl⟩ : ∃ n, fuel = n + 1 := ⟨fuel - 1, by omega⟩
    rfl
  | node a e k p l r h ihl _ =>
    obtain ⟨n, rfl⟩ : ∃ n, fuel = n + 1 := ⟨fuel - 1, by omega⟩
    simp only [holds_tree] at hm
    simp only [node_count_node] at hf
    simp only [Tree.ptr, find_first, hm.1]
    cases l with
    | null => simp [Tree.ptr]
    | node la le lk lp ll lr lh =>
      have := ihl hm.2.1 n (by simp only [node_count_node] at hf ⊢; omega)
      simp only [Tree.ptr] at this
      simp [Tree.ptr, this, List.head?_append]

theorem holds_tree_of_cells (mem : List (Nat × cell K T)) (s : Tree K T)
    (h : ∀ x ∈ cells s, read mem x.1 = some x.2) : holds_tree mem s := by
  induction s with
  | null => trivial
  | node a e k p l r hh ihl ihr =>
    simp only [cells, List.mem_append, List.mem_cons] at h
    refine ⟨h (a, _) (Or.inr (Or.inl rfl)), ihl fun x hx => h x (Or.inl hx),
      ihr fun x hx => h x (Or.inr (Or.inr hx))⟩

theorem read_of_mem (mem : List (Nat × cell K T)) (hn : (mem.map Prod.fst).Nodup)
    (x : Nat × cell K T) (hx : x ∈ mem) : read mem x.1 = some x.2 := by
  induction mem with
  | nil => simp at hx
  | cons y rest ih =>
    obtain ⟨m, c⟩ := y
    simp only [List.map_cons, List.nodup_cons, List.mem_map, not_exists, not_and] at hn
    rw [read_cons]
    rcases List.mem_cons.mp hx with rfl | hx
    · simp
    · have hne : x.1 ≠ m := fun h => hn.1 x hx h
      rw [if_neg hne]
      exact ih hn.2 hx

/-- The cells of a tree with pairwise different addresses hold the tree. -/
theorem cells_hold_tree (t : Tree K T) (hn : (in_order_addresses t).Nodup) :
    holds_tree (cells t) t :=
  holds_tree_of_cells _ _ fun x hx => read_of_mem _ (by rw [cells_addresses]; exact hn) x hx

theorem find_next_node_in_subtree (mem : List (Nat × cell K T)) (s : Tree K T)
    (holder after : Option Nat) (F : Nat)
    (hm : holds_tree mem s) (hp : parent_consistent holder s)
    (hn : (in_order_addresses s).Nodup)
    (hctx : ∀ a, s.ptr = some a → ∀ fuel, F ≤ fuel →
      find_next_node_walk fuel mem a = .done after)
    (a : Nat) (ha : a ∈ in_order_addresses s) (fuel : Nat) (hf : F + node_count s ≤ fuel) :
    find_next_node fuel mem (some a) = .done (next_in_order after a (in_order_addresses s)) := by
  induction s generalizing holder after F with
  | null => simp at ha
  | node c e k p l r h ihl ihr =>
    simp only [holds_tree] at hm
    obtain ⟨hmc, hml, hmr⟩ := hm
    simp only [parent_consistent] at hp
    obtain ⟨-, hpl, hpr⟩ := hp
    simp only [in_order_addresses_node] at hn ha ⊢
    have hnl : (in_order_addresses l).Nodup := (List.nodup_append.mp hn).1
    have hncr := (List.nodup_append.mp hn).2.1
    have hnr : (in_order_addresses r).Nodup := (List.nodup_cons.mp hncr).2
    have hcr : c ∉ in_order_addresses r := (List.nodup_cons.mp hncr).1
    have hdis := (List.nodup_append.mp hn).2.2
    have hcl : c ∉ in_order_addresses l := fun hx => hdis hx (List.mem_cons_self _ _)
    have hlr : ∀ x, x ∈ in_order_addresses l → x ∉ in_order_addresses r :=
      fun x hx hx' => hdis hx (List.mem_cons_of_mem _ hx')
    simp only [node_count_node] at hf
    rw [next_in_order_append]
    rcases List.mem_append.mp ha with hal | hacr
    · -- the node is in the left subtree: its successor there, or `c` after the last one
      rw [if_pos hal]
      simp only [List.head?_cons, Option.or]
      refine ihl (some c) (some c) 1 hml hpl hnl ?_ hal (by omega)
      intro la hla fuel1 hf1
      obtain ⟨n, rfl⟩ : ∃ n, fuel1 = n + 1 := ⟨fuel1 - 1, by omega⟩
      cases l with
      | null => simp [Tree.ptr] at hla
      | node la' le lk lp ll lr lh =>
        simp only [Tree.ptr, Option.some.injEq] at hla
        subst hla
        simp only [holds_tree] at hml
        simp only [parent_consistent] at hpl
        have hr : r.ptr ≠ some la' := fun hx =>
          hlr la' (by simp) (ptr_mem_addresses r la' hx)
        simp [find_next_node_walk, find_next_node_loop, hml.1, hpl.1, hmc, hr]
    · rw [if_neg (fun hx => by
        rcases List.mem_cons.mp hacr with rfl | har
        · exact hcl hx
        · exact hlr a hx har)]
      rcases List.mem_cons.mp hacr with rfl | har
      · -- the node is the root of the subtree
        simp only [next_in_order, if_true]
        cases r with
        | null =>
          have := hctx a rfl fuel (by omega)
          simp [find_next_node, hmc, Tree.ptr, this, Option.or]
        | node ra re rk rp rl rr rh =>
          have := find_first_leftmost mem (.node ra re rk rp rl rr rh) hmr fuel (by omega)
          simp only [find_next_node, hmc, Tree.ptr, ne_eq, reduceCtorEq, not_false_eq_true,
            if_true] at this ⊢
          rw [this]
          simp only [in_order_addresses_node, List.head?_append, List.head?_cons]
          cases (in_order_addresses rl).head? <;> simp [Option.or]
      · -- the node is in the right subtree
        have hac : c ≠ a := fun hx => hcr (hx ▸ har)
        simp only [next_in_order, hac, if_false]
        refine ihr (some c) after (F + 1) hmr hpr hnr ?_ har (by omega)
        intro ra hra fuel1 hf1
        obtain ⟨n, rfl⟩ : ∃ n, fuel1 = n + 1 := ⟨fuel1 - 1, by omega⟩
        cases r with
        | null => simp [Tree.ptr] at hra
        | node ra' re rk rp rl rr rh =>
          simp only [Tree.ptr, Option.some.injEq] at hra
          subst hra
          simp only [holds_tree] at hmr
          simp only [parent_consistent] at hpr
          have := hctx c rfl n (by omega)
          simp only [find_next_node_walk] at this
          simp [find_next_node_walk, find_next_node_loop, hmr.1, hpr.1, hmc, Tree.ptr, this]

/-- `find_next_node` computes the in-order successor: on the cells of a
parent-consistent tree whose nodes have pairwise different addresses, with a
budget above the number of nodes, it returns for every node the address of the
node that follows it in order, and `nullptr` for the last one. -/
theorem find_next_node_gives_successor (t : Tree K T)
    (hp : parent_consistent none t) (hn : (in_order_addresses t).Nodup)
    (a : Nat) (ha : a ∈ in_order_addresses t) (fuel : Nat) (hf : node_count t + 1 ≤ fuel) :
    find_next_node fuel (cells t) (some a) =
      .done (next_in_order none a (in_order_addresses t)) := by
  refine find_next_node_in_subtree (cells t) t none none 1 (cells_hold_tree t hn) hp hn ?_
    a ha fuel (by omega)
  intro c hc fuel1 hf1
  obtain ⟨n, rfl⟩ : ∃ n, fuel1 = n + 1 := ⟨fuel1 - 1, by omega⟩
  cases t with
  | null => simp [Tree.ptr] at hc
  | node c' e k p l r h =>
    simp only [Tree.ptr, Option.some.injEq] at hc
    subst hc
    simp only [parent_consistent] at hp
    obtain ⟨rfl, -, -⟩ := hp
    have hm := cells_hold_tree _ hn
    simp only [holds_tree] at hm
    simp [find_next_node_walk, find_next_node_loop, hm.1]

/-! ## Lookup through the root slot -/

/-- The private `get` started at the root slot: on a BST-ordered tree it throws
`length_error` exactly when no node reachable from the root has the key, and
returns `v` exactly when the node with that key stores `v`; a stored key always
gets a result; on the empty tree it throws for every key. -/
theorem get_via_root_slot_fails_iff_absent [LinearOrder K] (t : avl_tree K T) (key : K)
    (hb : bst_ordering t.root) :
    (t.get_via_root_slot key = .error .length_error ↔ key ∉ keys t.root) ∧
    (∀ v, t.get_via_root_slot key = .ok v ↔ (key, v) ∈ entries t.root) ∧
    (key ∈ keys t.root → ∃ v, t.get_via_root_slot key = .ok v) ∧
    (∀ n : Int, (avl_tree.mk (Tree.null : Tree K T) n).get_via_root_slot key =
      .error .length_error) := by
  refine ⟨get_error_iff t.root hb key, get_ok_iff t.root hb key, ?_, fun _ => rfl⟩
  intro hk
  obtain ⟨v, hv⟩ := (mem_keys_iff t.root key).mp hk
  exact ⟨v, get_ok_of_mem t.root hb key v hv⟩

/-! ## The claims -/

/-- C1, the copying overload at a failing input: the one-node tree holding
10 ↦ 1 (what `insert(1, 10)` makes of the empty tree) satisfies the invariants
and the private `get` from its root answers key 10 with 1; `insert(2, 5)`
(value 2, key 5) leaves a tree whose only node is the new one, with
`tree_size` 3, so the private `get` from the new root returns 2 for key 5 but
now throws for key 10. -/
theorem insert_copy_drops_other_key :
    (avl_tree.empty_tree : avl_tree Int Int).insert 1 10 1 = some one_node ∧
    invariants one_node.root ∧
    nwacc.get 10 one_node.root = .ok 1 ∧
    one_node.insert 2 5 2 = some ⟨.node 2 2 5 none .null .null 0, 3⟩ ∧
    nwacc.get 5 (Tree.node 2 2 5 none .null .null 0 : Tree Int Int) = .ok 2 ∧
    nwacc.get 10 (Tree.node 2 2 5 none .null .null 0 : Tree Int Int) =
      .error .length_error := by
  decide

/-- C2, the copying overload at a failing input: the four-node tree
20 (10 (5, -), 30), built by the move overload from the keys 20, 10, 30, 5,
satisfies the invariants; `insert(100, 5)` (value 100,
key 5) leaves a root with key 5 whose left child also has key 5, which is not
BST-ordered. -/
theorem insert_copy_breaks_bst_ordering :
    (avl_tree.empty_tree : avl_tree Int Int).insert_move_all
      [(2, 20, 2), (1, 10, 1), (3, 30, 3), (4, 5, 4)] = some four_nodes ∧
    invariants four_nodes.root ∧
    four_nodes.insert 100 5 9 =
      some ⟨.node 9 100 5 (some 2) (.node 4 4 5 (some 9) .null .null 0)
        (.node 1 1 10 (some 9) .null .null 0) 1, 8⟩ ∧
    ¬ bst_ordering (Tree.node 9 100 5 (some 2) (.node 4 4 5 (some 9) .null .null 0)
        (.node 1 1 10 (some 9) .null .null 0) 1 : Tree Int Int) := by
  decide

/-- C3 at a failing input: on 20 (10, 30), which is BST-ordered, the public
`get` has no result for the stored key 10 nor for the absent key 15, and on the
empty tree none for any key: the `const` member calls the private
`get(K, node *&)`, which is not `const`, with `this->root`, and has no
behaviour on any tree.  The private `get` started at the root slot returns the
element 1 for key 10, throws `length_error` for key 15, and throws for every
key on the empty tree. -/
theorem public_get_has_no_result :
    bst_ordering three_nodes.root ∧
    (10 : Int) ∈ keys three_nodes.root ∧ (15 : Int) ∉ keys three_nodes.root ∧
    three_nodes.get 10 = none ∧
    three_nodes.get 15 = none ∧
    (∀ (t : avl_tree Int Int) (key : Int), t.get key = none) ∧
    three_nodes.get_via_root_slot 10 = .ok 1 ∧
    three_nodes.get_via_root_slot 15 = .error .length_error ∧
    (∀ (key n : Int), (avl_tree.mk (Tree.null : Tree Int Int) n).get_via_root_slot key =
      .error .length_error) := by
  refine ⟨by decide, by decide, by decide, rfl, rfl, fun _ _ => rfl, by decide, by decide,
    fun _ _ => rfl⟩

/-- C4 at a failing input: 20 (10, 30) satisfies the invariants and stores the
key 10, and `remove(10)` has to descend from the root: it reaches
`this->remove(key, current->key->left)` and produces no tree, where the removal
through the child slots leaves the keys 20 and 30.  The claim's own example
does not descend: `remove(20)` leaves root key 30 with an empty right
subtree. -/
theorem remove_stops_at_left_descent :
    invariants three_nodes.root ∧
    (10 : Int) ∈ keys three_nodes.root ∧
    three_nodes.remove 10 = none ∧
    three_nodes.remove_via_child_slots 10 =
      some ⟨.node 2 2 20 none .null (.node 3 3 30 (some 2) .null .null 0) 1, 3⟩ ∧
    three_nodes.remove 20 =
      some ⟨.node 2 2 30 none (.node 1 1 10 (some 2) .null .null 0) .null 1, 3⟩ := by
  decide

/-- C5 at a failing input: in 20 (10, 30) with elements 10 ↦ 1, 20 ↦ 2,
30 ↦ 3, the private `get` from the root returns 3 for key 30; after
`remove(20)` the surviving node has key 30 but still the element 2 of the
removed key, so the private `get` from the root returns 2 for key 30. -/
theorem remove_two_children_keeps_old_element :
    invariants three_nodes.root ∧
    nwacc.get 30 three_nodes.root = .ok 3 ∧
    three_nodes.remove 20 =
      some ⟨.node 2 2 30 none (.node 1 1 10 (some 2) .null .null 0) .null 1, 3⟩ ∧
    nwacc.get 30 (Tree.node 2 2 30 none (.node 1 1 10 (some 2) .null .null 0) .null 1 :
      Tree Int Int) = .ok 2 := by
  decide

/-- C6 at a failing input: the one-node tree holding key 10 satisfies the
invariants and does not store 5; `remove(5)` has to descend left from the
root, reaches `this->remove(key, current->key->left)` and produces no tree,
where the removal through the child slots returns the unchanged state. -/
theorem remove_absent_key_stops_at_descent :
    invariants one_node.root ∧
    (5 : Int) ∉ keys one_node.root ∧
    one_node.remove 5 = none ∧
    one_node.remove_via_child_slots 5 = some one_node := by
  decide

/-- C7 at a failing input: 20 (10, 30) satisfies the invariants; `remove(30)`
has to descend right from the root, reaches
`this->remove(key, current->key->right)` and produces no tree at all, where
the removal through the child slots returns 20 (10, -), which satisfies the
invariants. -/
theorem remove_stops_at_right_descent :
    invariants three_nodes.root ∧
    three_nodes.remove 30 = none ∧
    three_nodes.remove_via_child_slots 30 =
      some ⟨.node 2 2 20 none (.node 1 1 10 (some 2) .null .null 0) .null 1, 3⟩ ∧
    invariants (Tree.node 2 2 20 none (.node 1 1 10 (some 2) .null .null 0) .null 1 :
      Tree Int Int) := by
  decide

/-- C8, the copying overload at a failing input: inserting key 10 into the
empty tree gives the one-node tree with `tree_size` 1; inserting key 10 again
overwrites the element of the one node and raises `tree_size` to 2, for one
distinct key and one reachable node. -/
theorem insert_copy_overcounts :
    (avl_tree.empty_tree : avl_tree Int Int).insert 1 10 1 = some one_node ∧
    one_node.insert 1 10 2 = some ⟨one_node.root, 2⟩ ∧
    node_count one_node.root = 1 := by
  decide

/-- C9 at a failing input: the one-node tree with `tree_size` 1 has one
reachable node; `remove(10)` empties it and leaves `tree_size` at 1, with no
reachable node. -/
theorem remove_keeps_tree_size :
    one_node.tree_size = 1 ∧
    node_count one_node.root = 1 ∧
    one_node.remove 10 = some ⟨.null, 1⟩ ∧
    node_count (Tree.null : Tree Int Int) = 0 := by
  decide

/-- C10, the copying overload at failing inputs, on the one-node tree holding
10 ↦ 1 with `tree_size` 1: `insert(5, 10)` (value 5, key 10) overwrites the
element but raises `tree_size` to 2; `insert(50, 10)` (value 50, key 10) does
not overwrite at all: it descends right, leaves a new cell (address 2) as the
only node and raises `tree_size` to 3. -/
theorem insert_copy_overwrite_changes_size :
    (avl_tree.empty_tree : avl_tree Int Int).insert 1 10 1 = some one_node ∧
    invariants one_node.root ∧
    (10 : Int) ∈ keys one_node.root ∧
    one_node.insert 5 10 2 = some ⟨.node 1 5 10 none .null .null 0, 2⟩ ∧
    one_node.insert 50 10 2 = some ⟨.node 2 50 10 none .null .null 0, 3⟩ := by
  decide

/-! ## The claims on cursors, parent links, teardown, copy and rotations -/

/-- C11 at a failing input: on the tree 20 (10, 30), built by the move
overload from the keys 10, 20, 30, the forward walk starts at the node with
key 10 and steps to 20 and to 30 without touching the memory; the next `++`,
on the node 30 that is the right child of 20, never returns, whatever the
budget, so `end()` is never reached.  Backwards the walk goes 30, 20, 10 and
the next `--`, on the left child 10, never returns. -/
theorem iteration_never_reaches_the_sentinel :
    (avl_tree.empty_tree : avl_tree Int Int).insert_move_all
      [(1, 10, 1), (2, 20, 2), (3, 30, 3)] = some three_nodes ∧
    three_nodes.end_cursor = none ∧ three_nodes.begin_cursor = none ∧
    three_nodes.first_element = some 1 ∧
    get_key (cells three_nodes.root) (some 1) = some 10 ∧
    increment 2 (cells three_nodes.root) (some 1) = .done (cells three_nodes.root, some 2) ∧
    get_key (cells three_nodes.root) (some 2) = some 20 ∧
    increment 2 (cells three_nodes.root) (some 2) = .done (cells three_nodes.root, some 3) ∧
    get_key (cells three_nodes.root) (some 3) = some 30 ∧
    (∀ fuel, increment fuel (cells three_nodes.root) (some 3) = .out_of_fuel) ∧
    three_nodes.last_element = some 3 ∧
    decrement 2 (cells three_nodes.root) (some 3) = .done (cells three_nodes.root, some 2) ∧
    decrement 2 (cells three_nodes.root) (some 2) = .done (cells three_nodes.root, some 1) ∧
    (∀ fuel, decrement fuel (cells three_nodes.root) (some 1) = .out_of_fuel) := by
  refine ⟨by decide, rfl, rfl, by decide, by decide, by decide, by decide, by decide, by decide,
    ?_, by decide, by decide, by decide, ?_⟩
  · intro fuel
    exact increment_never_done 3 2 fuel (cells three_nodes.root)
      ⟨3, 30, some 2, none, none, 0⟩ ⟨2, 20, none, some 1, some 3, 1⟩
      (by decide) rfl rfl (by decide) rfl
  · intro fuel
    exact decrement_never_done 1 2 fuel (cells three_nodes.root)
      ⟨1, 10, some 2, none, none, 0⟩ ⟨2, 20, none, some 1, some 3, 1⟩
      (by decide) rfl rfl (by decide) rfl

/-- C12 at a failing input: on 20 (10, 30) the call `insert(5, 10)` (value 5,
key 10) overwrites the element of the node with key 10, one level below the
root, and returns a cursor holding the address of the root: `get_key()` on it
yields 20 and dereferencing it yields 2, not 10 and 5. -/
theorem insert_copy_returns_cursor_at_root :
    invariants three_nodes.root ∧
    three_nodes.insert 5 10 9 =
      some ⟨.node 2 2 20 none (.node 1 5 10 (some 2) .null .null 0)
        (.node 3 3 30 (some 2) .null .null 0) 1, 5⟩ ∧
    three_nodes.insert_cursor 5 10 9 = some (some 2) ∧
    get_key (cells (Tree.node 2 2 20 none (.node 1 5 10 (some 2) .null .null 0)
      (.node 3 3 30 (some 2) .null .null 0) 1 : Tree Int Int)) (some 2) = some 20 ∧
    dereference (cells (Tree.node 2 2 20 none (.node 1 5 10 (some 2) .null .null 0)
      (.node 3 3 30 (some 2) .null .null 0) 1 : Tree Int Int)) (some 2) = some 2 := by
  decide

/-- C13, the copying overload at a failing input: 20 (10 (5, -), 30) is
parent-consistent, satisfies the invariants and does not store 7;
`insert(7, 7)` leaves a root whose parent field holds the address of the old
root (cell 2), so the result is not parent-consistent. -/
theorem insert_copy_breaks_parent_links :
    invariants four_nodes.root ∧
    parent_consistent none four_nodes.root ∧
    (7 : Int) ∉ keys four_nodes.root ∧
    four_nodes.insert 7 7 9 =
      some ⟨.node 9 7 7 (some 2) (.node 4 4 5 (some 9) .null .null 0)
        (.node 1 1 10 (some 9) .null .null 0) 1, 8⟩ ∧
    ¬ parent_consistent none (Tree.node 9 7 7 (some 2) (.node 4 4 5 (some 9) .null .null 0)
        (.node 1 1 10 (some 9) .null .null 0) 1 : Tree Int Int) := by
  decide

/-- C14 at a failing input: 10 (-, 20), built by the move overload, is
parent-consistent and satisfies the invariants; `remove(10)` splices the root
out and puts its only child in the root slot without touching the child's
parent field, which still holds the address of the deleted cell 1.  The removal
through the child slots does the same. -/
theorem remove_leaves_stale_parent :
    (avl_tree.empty_tree : avl_tree Int Int).insert_move_all [(1, 10, 1), (2, 20, 2)] =
      some two_nodes ∧
    invariants two_nodes.root ∧
    parent_consistent none two_nodes.root ∧
    two_nodes.remove 10 = some ⟨.node 2 2 20 (some 1) .null .null 0, 2⟩ ∧
    two_nodes.remove_via_child_slots 10 = some ⟨.node 2 2 20 (some 1) .null .null 0, 2⟩ ∧
    ¬ parent_consistent none (Tree.node 2 2 20 (some 1) .null .null 0 : Tree Int Int) := by
  decide

/-- C15: on a non-empty BST-ordered tree `first_element()` holds the address of
the leftmost node, whose key is the minimum of the stored keys, and
`last_element()` the address of the rightmost node, whose key is the maximum;
on the empty tree both are the null cursor that `end()` and `begin()` are. -/
theorem first_and_last_locate_extremes [LinearOrder K] (t : avl_tree K T)
    (hb : bst_ordering t.root) (hne : t.root.is_node = true) :
    (∃ a e k p r h, find_min t.root = .node a e k p .null r h ∧ t.first_element = some a ∧
      k ∈ keys t.root ∧ ∀ x ∈ keys t.root, k ≤ x) ∧
    (∃ a e k p l h, find_max t.root = .node a e k p l .null h ∧ t.last_element = some a ∧
      k ∈ keys t.root ∧ ∀ x ∈ keys t.root, x ≤ k) ∧
    (∀ n : Int, (avl_tree.mk (Tree.null : Tree K T) n).first_element =
        (avl_tree.mk (Tree.null : Tree K T) n).end_cursor ∧
      (avl_tree.mk (Tree.null : Tree K T) n).last_element =
        (avl_tree.mk (Tree.null : Tree K T) n).begin_cursor) := by
  cases hroot : t.root with
  | null => rw [hroot] at hne; simp at hne
  | node c e k0 p l r h =>
    rw [hroot] at hb
    obtain ⟨ma, me, mk, mp, mr, mh, hf, hm, hle⟩ := find_min_spec c e k0 p l r h hb
    obtain ⟨xa, xe, xk, xp, xl, xh, hg, hx, hge⟩ := find_max_spec c e k0 p l r h hb
    refine ⟨⟨ma, me, mk, mp, mr, mh, hf, ?_, hm, hle⟩,
      ⟨xa, xe, xk, xp, xl, xh, hg, ?_, hx, hge⟩, fun _ => ⟨rfl, rfl⟩⟩
    · simp [avl_tree.first_element, hroot, hf, Tree.ptr]
    · simp [avl_tree.last_element, hroot, hg, Tree.ptr]

/-- C15 at the tree 20 (10, 30): the first element is cell 1 (key 10), the
last element is cell 3 (key 30). -/
theorem first_and_last_locate_extremes_witness :
    bst_ordering three_nodes.root ∧ three_nodes.root.is_node = true ∧
    (∃ a e k p r h, find_min three_nodes.root = .node a e k p .null r h ∧
      three_nodes.first_element = some a ∧
      k ∈ keys three_nodes.root ∧ ∀ x ∈ keys three_nodes.root, k ≤ x) ∧
    three_nodes.first_element = some 1 ∧ three_nodes.last_element = some 3 :=
  ⟨by decide, by decide,
   (first_and_last_locate_extremes three_nodes (by decide) (by decide)).1,
   by decide, by decide⟩

/-- C16 at a failing input: `empty()` deletes every node and leaves the root
null, so `is_empty()` is true, but it has no statement that touches
`tree_size`: on the one-node tree the stored size is still 1 afterwards, with
no node reachable. -/
theorem empty_keeps_tree_size :
    (∀ t : avl_tree Int Int, t.empty.root = .null ∧ t.empty.is_empty = true ∧
      t.empty.tree_size = t.tree_size) ∧
    one_node.tree_size = 1 ∧
    one_node.empty = ⟨.null, 1⟩ ∧
    node_count (Tree.null : Tree Int Int) = 0 ∧
    empty three_nodes.root = ([1, 3, 2], .null) := by
  refine ⟨fun t => ?_, by decide, by decide, by decide, by decide⟩
  cases h : t.root <;> simp [avl_tree.empty, avl_tree.is_empty, empty, h]

/-- C17 at a failing input: copy construction of the one-node tree reaches
`clone->key` and produces no tree.  With `clone->key` and `clone->parent` read
as `current->key` and `current->parent`, the copy of the parent-consistent
tree 20 (10, 30) at the addresses 102, 101, 103 has the shape, keys, elements
and heights of the source, but the parent fields of its children still hold
the address 2 of the source's root: the parent links are not rebuilt. -/
theorem clone_has_no_result_on_a_node :
    one_node.copy_construct = none ∧
    (avl_tree.empty_tree : avl_tree Int Int).copy_construct = some avl_tree.empty_tree ∧
    parent_consistent none three_nodes.root ∧
    clone_from_current (fun n => n + 100) three_nodes.root =
      .node 102 2 20 none (.node 101 1 10 (some 2) .null .null 0)
        (.node 103 3 30 (some 2) .null .null 0) 1 ∧
    ¬ parent_consistent none (clone_from_current (fun n => n + 100) three_nodes.root) := by
  decide

/-- C18: for a node whose two subtrees satisfy AVL balance and height
correctness and differ in height by at most 2, `balance` returns a subtree
that satisfies AVL balance and height correctness at every node and has the
same in-order (key, element) pairs; when the heights differ by at most 1 the
result is the node itself with only its cached height set to
`max(height(left), height(right)) + 1`. -/
theorem balance_restores_local_balance (a : Nat) (e : T) (k : K) (p : Option Nat)
    (l r : Tree K T) (h : Int)
    (hl : avl_balance l) (hlc : height_correctness l)
    (hr : avl_balance r) (hrc : height_correctness r)
    (hd1 : height l - height r ≤ 2) (hd2 : height r - height l ≤ 2) :
    ∃ t', balance (.node a e k p l r h) = some t' ∧
      avl_balance t' ∧ height_correctness t' ∧
      entries t' = entries (.node a e k p l r h) ∧
      (height l - height r ≤ 1 → height r - height l ≤ 1 →
        t' = .node a e k p l r (max (height l) (height r) + 1)) := by
  obtain ⟨t', ht', ta, tc, -, -, h3⟩ := balance_spec a e k p l r h hl hlc hr hrc hd1 hd2
  exact ⟨t', ht', ta, tc, balance_entries ht', h3⟩

/-- C18 at the left-heavy node 20 over 10 (5, -) and an empty right subtree
(heights 1 and -1): `balance` rotates and returns 10 (5, 20), which is
balanced with correct heights. -/
theorem balance_restores_local_balance_witness :
    avl_balance (Tree.node 1 1 10 (some 2) (.node 4 4 5 (some 1) .null .null 0) .null 1 :
      Tree Int Int) ∧
    height_correctness (Tree.node 1 1 10 (some 2) (.node 4 4 5 (some 1) .null .null 0) .null 1 :
      Tree Int Int) ∧
    balance (Tree.node 2 2 20 none
        (.node 1 1 10 (some 2) (.node 4 4 5 (some 1) .null .null 0) .null 1) .null 2 :
        Tree Int Int) =
      some (.node 1 1 10 none (.node 4 4 5 (some 1) .null .null 0)
        (.node 2 2 20 (some 1) .null .null 0) 1) ∧
    ∃ t', balance (Tree.node 2 2 20 none
        (.node 1 1 10 (some 2) (.node 4 4 5 (some 1) .null .null 0) .null 1) .null 2 :
        Tree Int Int) = some t' ∧ avl_balance t' ∧ height_correctness t' :=
  ⟨by decide, by decide, by decide,
   let ⟨t', h1, h2, h3, _⟩ := balance_restores_local_balance 2 2 20 none
     (.node 1 1 10 (some 2) (.node 4 4 5 (some 1) .null .null 0) .null 1 : Tree Int Int)
     .null 2 (by decide) (by decide) (by decide) (by decide) (by decide) (by decide)
   ⟨t', h1, h2, h3⟩⟩

/-- C19: `rotate_with_left_child` on a node `c` with left child `l` (subtrees
`x`, `y`) and right subtree `z` puts `l` in the slot with `c`'s old parent,
makes `c` the right child of `l` with parent `l`, makes `y` the left subtree of
`c` (its root's parent set to `c`), keeps the in-order keys, and sets first
`c.height` and then `l.height` to 1 + max of the children's heights, so the
cached heights are correct when those of `x`, `y`, `z` are.
`rotate_with_right_child` is the mirror image. -/
theorem single_rotation_restructures (c : Nat) (ce : T) (ck : K) (cp : Option Nat) (ch : Int)
    (l : Nat) (le : T) (lk : K) (lp : Option Nat) (lh : Int) (x y z : Tree K T)
    (hx : height_correctness x) (hy : height_correctness y) (hz : height_correctness z) :
    (∃ t', rotate_with_left_child (.node c ce ck cp (.node l le lk lp x y lh) z ch) = some t' ∧
      t' = .node l le lk cp x
        (.node c ce ck (some l) (fix_parent c y) (fix_parent c z)
          (max (height y) (height z) + 1))
        (max (height x) (max (height y) (height z) + 1) + 1) ∧
      keys t' = keys (.node c ce ck cp (.node l le lk lp x y lh) z ch) ∧
      height_correctness t') ∧
    (∃ t', rotate_with_right_child (.node c ce ck cp x (.node l le lk lp y z lh) ch) = some t' ∧
      t' = .node l le lk cp
        (.node c ce ck (some l) (fix_parent c x) (fix_parent c y)
          (max (height x) (height y) + 1)) z
        (max (height z) (max (height x) (height y) + 1) + 1) ∧
      keys t' = keys (.node c ce ck cp x (.node l le lk lp y z lh) ch) ∧
      height_correctness t') ∧
    (∀ a e k p u v h, fix_parent c (.node a e k p u v h : Tree K T) =
      .node a e k (some c) u v h) ∧
    fix_parent c (.null : Tree K T) = .null := by
  refine ⟨⟨_, rfl, ?_, ?_, ?_⟩, ⟨_, rfl, ?_, ?_, ?_⟩, ?_, rfl⟩
  · simp
  · simp [keys_eq_map]
  · simp [height_correctness, hx, hy, hz]; omega
  · simp
  · simp [keys_eq_map]
  · simp [height_correctness, hx, hy, hz]; omega
  · intro a e k p u v h
    exact fix_parent_node c a e k p u v h

/-- C19 at the node 20 with left child 10 (5, -): the rotation returns
10 (5, 20) with parents and heights rewritten. -/
theorem single_rotation_restructures_witness :
    height_correctness (Tree.node 4 4 5 (some 1) .null .null 0 : Tree Int Int) ∧
    height_correctness (Tree.null : Tree Int Int) ∧
    rotate_with_left_child (Tree.node 2 2 20 none
        (.node 1 1 10 (some 2) (.node 4 4 5 (some 1) .null .null 0) .null 1) .null 2 :
        Tree Int Int) =
      some (.node 1 1 10 none (.node 4 4 5 (some 1) .null .null 0)
        (.node 2 2 20 (some 1) .null .null 0) 1) ∧
    ∃ t', rotate_with_left_child (Tree.node 2 2 20 none
        (.node 1 1 10 (some 2) (.node 4 4 5 (some 1) .null .null 0) .null 1) .null 2 :
        Tree Int Int) = some t' ∧ height_correctness t' :=
  ⟨by decide, by decide, by decide,
   let ⟨t', h1, _, _, h4⟩ := (single_rotation_restructures 2 (2 : Int) (20 : Int) none 2
     1 1 10 (some 2) 1 (.node 4 4 5 (some 1) .null .null 0) .null .null
     (by decide) (by decide) (by decide)).1
   ⟨t', h1, h4⟩⟩

/-- C20, the copying overload at a failing input: inserting the keys 10, 20,
30 (each with the key as its value) through `insert(const T&, const K&)` leaves
the single node 30, and 30, 10, 20 leaves the single node 20; whatever the
three values are, one node is reachable afterwards.  The move overload builds
20 (10, 30) with root height 1 from both orders. -/
theorem insert_copy_three_keys_single_node :
    (avl_tree.empty_tree : avl_tree Int Int).insert_all
      [(10, 10, 1), (20, 20, 2), (30, 30, 3)] =
      some ⟨.node 3 30 30 none .null .null 0, 5⟩ ∧
    (avl_tree.empty_tree : avl_tree Int Int).insert_all
      [(30, 30, 1), (10, 10, 2), (20, 20, 3)] =
      some ⟨.node 3 20 20 none .null .null 0, 5⟩ ∧
    (∀ v1 v2 v3 : Int, ∃ t', (avl_tree.empty_tree : avl_tree Int Int).insert_all
      [(v1, 10, 1), (v2, 20, 2), (v3, 30, 3)] = some t' ∧ node_count t'.root = 1) ∧
    (∀ v1 v2 v3 : Int, ∃ t', (avl_tree.empty_tree : avl_tree Int Int).insert_all
      [(v1, 30, 1), (v2, 10, 2), (v3, 20, 3)] = some t' ∧ node_count t'.root = 1) ∧
    (avl_tree.empty_tree : avl_tree Int Int).insert_move_all
      [(1, 10, 1), (2, 20, 2), (3, 30, 3)] =
      some ⟨.node 2 2 20 none (.node 1 1 10 (some 2) .null .null 0)
        (.node 3 3 30 (some 2) .null .null 0) 1, 3⟩ ∧
    (avl_tree.empty_tree : avl_tree Int Int).insert_move_all
      [(1, 30, 1), (2, 10, 2), (3, 20, 3)] =
      some ⟨.node 3 3 20 none (.node 2 2 10 (some 3) .null .null 0)
        (.node 1 1 30 (some 3) .null .null 0) 1, 3⟩ := by
  refine ⟨by decide, by decide, ?_, ?_, by decide, by decide⟩
  · intro v1 v2 v3
    simp only [avl_tree.insert_all, avl_tree.insert, avl_tree.empty_tree, insert_copy,
      insert_copy_tail, if_true, Option.map_some']
    split_ifs <;> simp [insert_copy, insert_copy_tail, subtree_at, balance, refresh_height,
      avl_tree.insert_all, avl_tree.insert, node_count] <;> split_ifs <;>
      simp [insert_copy, insert_copy_tail, subtree_at, balance, refresh_height,
      avl_tree.insert_all, avl_tree.insert, node_count]
  · intro v1 v2 v3
    simp only [avl_tree.insert_all, avl_tree.insert, avl_tree.empty_tree, insert_copy,
      insert_copy_tail, if_true, Option.map_some']
    split_ifs <;> simp [insert_copy, insert_copy_tail, subtree_at, balance, refresh_height,
      avl_tree.insert_all, avl_tree.insert, node_count] <;> split_ifs <;>
      simp [insert_copy, insert_copy_tail, subtree_at, balance, refresh_height,
      avl_tree.insert_all, avl_tree.insert, node_count]

/-! ## The claims on stepping and on the two overloads -/

/-- C21 at a failing input: 20 (10 (5, 15), 30), built by the move overload, is
parent-consistent and BST-ordered.  The node with key 15 has no right child
and is the right child of 10: `++` on it never returns, whatever the budget,
where `find_next_node` returns the node with key 20, the nearest ancestor left
through a left child.  `++` on the node with the maximum key 30 never returns
either, where `find_next_node` returns the null cursor.  On the other three
nodes `++` returns what `find_next_node` returns.  `--` on the node with the
minimum key 5, a left child without left child, never returns. -/
theorem increment_hangs_on_right_child :
    (avl_tree.empty_tree : avl_tree Int Int).insert_move_all
      [(2, 20, 2), (1, 10, 1), (3, 30, 3), (4, 5, 4), (5, 15, 5)] = some five_nodes ∧
    parent_consistent none five_nodes.root ∧ bst_ordering five_nodes.root ∧
    get_key (cells five_nodes.root) (some 5) = some 15 ∧
    (∀ fuel, increment fuel (cells five_nodes.root) (some 5) = .out_of_fuel) ∧
    find_next_node 6 (cells five_nodes.root) (some 5) = .done (some 2) ∧
    get_key (cells five_nodes.root) (some 2) = some 20 ∧
    get_key (cells five_nodes.root) (some 3) = some 30 ∧
    (∀ fuel, increment fuel (cells five_nodes.root) (some 3) = .out_of_fuel) ∧
    find_next_node 6 (cells five_nodes.root) (some 3) = .done none ∧
    increment 6 (cells five_nodes.root) (some 4) = .done (cells five_nodes.root, some 1) ∧
    find_next_node 6 (cells five_nodes.root) (some 4) = .done (some 1) ∧
    increment 6 (cells five_nodes.root) (some 1) = .done (cells five_nodes.root, some 5) ∧
    find_next_node 6 (cells five_nodes.root) (some 1) = .done (some 5) ∧
    increment 6 (cells five_nodes.root) (some 2) = .done (cells five_nodes.root, some 3) ∧
    find_next_node 6 (cells five_nodes.root) (some 2) = .done (some 3) ∧
    get_key (cells five_nodes.root) (some 4) = some 5 ∧
    (∀ fuel, decrement fuel (cells five_nodes.root) (some 4) = .out_of_fuel) := by
  refine ⟨by decide, by decide, by decide, by decide, ?_, by decide, by decide, by decide, ?_,
    by decide, by decide, by decide, by decide, by decide, by decide, by decide, by decide, ?_⟩
  · intro fuel
    exact increment_never_done 5 1 fuel (cells five_nodes.root)
      ⟨5, 15, some 1, none, none, 0⟩ ⟨1, 10, some 2, some 4, some 5, 1⟩
      (by decide) rfl rfl (by decide) rfl
  · intro fuel
    exact increment_never_done 3 2 fuel (cells five_nodes.root)
      ⟨3, 30, some 2, none, none, 0⟩ ⟨2, 20, none, some 1, some 3, 2⟩
      (by decide) rfl rfl (by decide) rfl
  · intro fuel
    exact decrement_never_done 4 1 fuel (cells five_nodes.root)
      ⟨4, 5, some 1, none, none, 0⟩ ⟨1, 10, some 2, some 4, some 5, 1⟩
      (by decide) rfl rfl (by decide) rfl

/-- C22 at a failing input: on the one-node tree holding 10 ↦ 1 with
`tree_size` 1, both private overloads are started with parent none at the root
for value 2 and key 5.  The copying overload assigns `root`, leaves the new
node as the only node and `tree_size` 3; the move overload leaves 10 (5, -)
with `tree_size` 2.  For value 50 and key 10 the copying overload allocates
and the move overload overwrites.  On the empty tree the two agree. -/
theorem insert_overloads_disagree :
    invariants one_node.root ∧
    insert_copy (2 : Int) 5 none 2 true one_node.root one_node.tree_size =
      some ⟨.node 2 2 5 none .null .null 0, 3, some 2⟩ ∧
    insert_move (2 : Int) (5 : Int) 2 none one_node.root one_node.tree_size =
      some ⟨.node 1 1 10 none (.node 2 2 5 (some 1) .null .null 0) .null 1, 2, none⟩ ∧
    one_node.insert 2 5 2 = some ⟨.node 2 2 5 none .null .null 0, 3⟩ ∧
    one_node.insert_move 2 5 2 =
      some ⟨.node 1 1 10 none (.node 2 2 5 (some 1) .null .null 0) .null 1, 2⟩ ∧
    one_node.insert 50 10 2 = some ⟨.node 2 50 10 none .null .null 0, 3⟩ ∧
    one_node.insert_move 50 10 2 = some ⟨.node 1 50 10 none .null .null 0, 1⟩ ∧
    (∀ (value key : Int) (a : Nat) (tree_size : Int),
      insert_copy value key none a true .null tree_size =
        insert_move value key a none .null tree_size) := by
  refine ⟨by decide, by decide, by decide, by decide, by decide, by decide, by decide, ?_⟩
  intro value key a tree_size
  simp [insert_copy, insert_move, balance_leaf]

/-- C23 at a failing input: on 20 (10, 30) the node 30 (cell 3) has a null
right pointer.  `++` on it enters its loop, whose body is
`current->right = current->parent`: after one pass the call goes on with a
memory in which the right pointer of node 30 holds the address of node 20, and
it never returns.  `--` on the node 10 (cell 1) writes its left pointer the
same way. -/
theorem increment_writes_right_pointer :
    read (cells three_nodes.root) 3 = some ⟨3, 30, some 2, none, none, 0⟩ ∧
    (∀ fuel, increment_loop 3 (fuel + 1) (cells three_nodes.root) =
      increment_loop 3 fuel (write_right (cells three_nodes.root) 3 (some 2))) ∧
    read (write_right (cells three_nodes.root) 3 (some 2)) 3 =
      some ⟨3, 30, some 2, none, some 2, 0⟩ ∧
    write_right (cells three_nodes.root) 3 (some 2) ≠ cells three_nodes.root ∧
    (∀ fuel, increment fuel (cells three_nodes.root) (some 3) = .out_of_fuel) ∧
    read (cells three_nodes.root) 1 = some ⟨1, 10, some 2, none, none, 0⟩ ∧
    (∀ fuel, decrement_loop 1 (fuel + 1) (cells three_nodes.root) =
      decrement_loop 1 fuel (write_left (cells three_nodes.root) 1 (some 2))) ∧
    read (write_left (cells three_nodes.root) 1 (some 2)) 1 =
      some ⟨1, 10, some 2, some 2, none, 0⟩ ∧
    write_left (cells three_nodes.root) 1 (some 2) ≠ cells three_nodes.root ∧
    (∀ fuel, decrement fuel (cells three_nodes.root) (some 1) = .out_of_fuel) := by
  refine ⟨by decide, fun fuel => rfl, by decide, by decide, ?_, by decide, fun fuel => rfl,
    by decide, by decide, ?_⟩
  · intro fuel
    exact increment_never_done 3 2 fuel (cells three_nodes.root)
      ⟨3, 30, some 2, none, none, 0⟩ ⟨2, 20, none, some 1, some 3, 1⟩
      (by decide) rfl rfl (by decide) rfl
  · intro fuel
    exact decrement_never_done 1 2 fuel (cells three_nodes.root)
      ⟨1, 10, some 2, none, none, 0⟩ ⟨2, 20, none, some 1, some 3, 1⟩
      (by decide) rfl rfl (by decide) rfl

end nwacc
